import Mathlib

/-!
Verification development for the tips-catalogue generator
(`generate_catalogue.py`).

The program is a linear text pipeline: list HTML tip files per git branch,
extract a numeric identifier / title / body summary from each via regex
passes, merge the per-branch mappings with a fixed precedence, append
issue-derived entries, and render a markdown table.

The shallow embedding below works on `List Char`.  Each Python `re.sub`
pass is modelled by a fueled left-to-right scanner (`scanSub`) together
with a front-matcher (`tm…`) that reproduces the leftmost-match semantics
of the concrete pattern involved (all the patterns used by the program are
simple enough that their backtracking behaviour collapses to
"match at the first position where the literal head matches, ending at the
first eligible closing delimiter"; this is established pattern by pattern
in the comments next to each matcher).  Fuel is always instantiated with
the length of the input, which bounds the number of scanning steps, so the
wrappers are total structural functions that the kernel can evaluate.

Python specifics mirrored here: `str.strip`/`\s` use ASCII whitespace
(the inputs exercised by the development are ASCII), `str.split()` drops
empty fields, dictionaries are association lists with insertion-order
iteration and in-place overwrite on key collision, and
`subprocess.CalledProcessError` / `FileNotFoundError` are the two failure
modes of an external command (nonzero exit status respectively missing
executable).
-/

namespace GalaxyTips

/-- ASCII whitespace: the characters matched by the regex class `\s`
(and stripped by `str.strip()`) on ASCII text. -/
def isWs (c : Char) : Bool :=
  c = ' ' || c = '\t' || c = '\n' || c = '\r' || c = '\x0b' || c = '\x0c'

/-- ASCII decimal digit, the regex class `\d` on ASCII text. -/
def isDigitC (c : Char) : Bool :=
  '0' ≤ c && c ≤ '9'

/-- ASCII word character, the regex class `\w` on ASCII text. -/
def isWordC (c : Char) : Bool :=
  isDigitC c || ('a' ≤ c && c ≤ 'z') || ('A' ≤ c && c ≤ 'Z') || c = '_'

/-- ASCII lower-casing, used to model the `re.IGNORECASE` flag. -/
def lowerC (c : Char) : Char :=
  match c with
  | 'A' => 'a' | 'B' => 'b' | 'C' => 'c' | 'D' => 'd' | 'E' => 'e'
  | 'F' => 'f' | 'G' => 'g' | 'H' => 'h' | 'I' => 'i' | 'J' => 'j'
  | 'K' => 'k' | 'L' => 'l' | 'M' => 'm' | 'N' => 'n' | 'O' => 'o'
  | 'P' => 'p' | 'Q' => 'q' | 'R' => 'r' | 'S' => 's' | 'T' => 't'
  | 'U' => 'u' | 'V' => 'v' | 'W' => 'w' | 'X' => 'x' | 'Y' => 'y'
  | 'Z' => 'z'
  | d => d

/-- The backtick character (written via its code point). -/
def btChar : Char := '\x60'

/-- Case-sensitive "starts with" on character lists. -/
def startsWithL : List Char → List Char → Bool
  | [], _ => true
  | _ :: _, [] => false
  | p :: ps, c :: cs => p = c && startsWithL ps cs

/-- Case-insensitive "starts with": the pattern is given in lower case and
each input character is lower-cased before comparison. -/
def startsWithCI : List Char → List Char → Bool
  | [], _ => true
  | _ :: _, [] => false
  | p :: ps, c :: cs => lowerC c = p && startsWithCI ps cs

/-- Split a list at the first occurrence of character `x`:
`splitFirstCh x l = some (a, b)` iff `l = a ++ x :: b` with `x ∉ a`. -/
def splitFirstCh (x : Char) : List Char → Option (List Char × List Char)
  | [] => none
  | c :: cs =>
    if c = x then some ([], cs)
    else
      match splitFirstCh x cs with
      | none => none
      | some (a, b) => some (c :: a, b)

/-- Split a list at the first occurrence (case-insensitive) of the literal
`pat`: returns the part strictly before the occurrence and the part
strictly after it. -/
def splitFirstCI (pat : List Char) : List Char → Option (List Char × List Char)
  | [] => none
  | c :: cs =>
    if startsWithCI pat (c :: cs) then some ([], (c :: cs).drop pat.length)
    else
      match splitFirstCI pat cs with
      | none => none
      | some (a, b) => some (c :: a, b)

/-- Split a list at the first occurrence (case-sensitive) of the literal
`pat`: returns the part strictly before the occurrence and the part
strictly after it. -/
def splitFirstL (pat : List Char) : List Char → Option (List Char × List Char)
  | [] => none
  | c :: cs =>
    if startsWithL pat (c :: cs) then some ([], (c :: cs).drop pat.length)
    else
      match splitFirstL pat cs with
      | none => none
      | some (a, b) => some (c :: a, b)

/-- Does some suffix of the list satisfy `p`?  (Used to express
"contains a substring matching …": `p` only constrains a prefix of the
suffix it is given.) -/
def anySuffix (p : List Char → Bool) : List Char → Bool
  | [] => p []
  | c :: cs => p (c :: cs) || anySuffix p cs

/-- Drop trailing ASCII whitespace. -/
def dropEndWs (l : List Char) : List Char :=
  (l.reverse.dropWhile isWs).reverse

/-- Python `str.strip()` on ASCII text: drop leading and trailing
whitespace. -/
def pstrip (l : List Char) : List Char :=
  dropEndWs (l.dropWhile isWs)

/-- Python `re.sub(r'\s+', ' ', l)` on ASCII text: every maximal run of
whitespace becomes a single space. -/
def collapse : List Char → List Char
  | [] => []
  | c :: cs =>
    if isWs c then
      match cs with
      | [] => [' ']
      | c2 :: _ => if isWs c2 then collapse cs else ' ' :: collapse cs
    else c :: collapse cs

/-- Fueled worker for `pyWords` (Python `str.split()` with no argument:
split on whitespace runs, dropping empty fields).  The fuel strictly
bounds the number of characters consumed, so `pyWordsF l.length l` is the
exact splitting. -/
def pyWordsF : Nat → List Char → List (List Char)
  | 0, _ => []
  | _ + 1, [] => []
  | fuel + 1, c :: cs =>
    if isWs c then pyWordsF fuel cs
    else (c :: cs.takeWhile (fun d => !isWs d)) :: pyWordsF fuel (cs.dropWhile (fun d => !isWs d))

/-- Python `str.split()`: the whitespace-separated words of a string. -/
def pyWords (l : List Char) : List (List Char) :=
  pyWordsF l.length l

/-- Python `' '.join(ws)`. -/
def joinSp : List (List Char) → List Char
  | [] => []
  | [w] => w
  | w :: v :: ws => w ++ ' ' :: joinSp (v :: ws)

/-- Python `'\n'.join(ws)`. -/
def joinNl : List (List Char) → List Char
  | [] => []
  | [w] => w
  | w :: v :: ws => w ++ '\n' :: joinNl (v :: ws)

/-- Python `s.split('\n')` (always returns at least one field). -/
def splitOnNl : List Char → List (List Char)
  | [] => [[]]
  | c :: cs =>
    if c = '\n' then [] :: splitOnNl cs
    else
      match splitOnNl cs with
      | [] => [[c]]
      | h :: t => (c :: h) :: t

/-- Python `s.rstrip('*')`. -/
def rstripStars (l : List Char) : List Char :=
  (l.reverse.dropWhile (fun c => c = '*')).reverse

/-- `Path(p).name` for the slash-separated paths produced by
`git ls-tree`: the part after the last `/`.  (Pathlib's extra
normalisation of trailing slashes never arises for these paths.) -/
def pyBasename (l : List Char) : List Char :=
  (l.reverse.takeWhile (fun c => c ≠ '/')).reverse

/-- Numeric value of a digit string, as computed by Python `int(...)`
(leading zeros allowed). -/
def digitsVal (l : List Char) : Nat :=
  l.foldl (fun a c => 10 * a + (c.toNat - 48)) 0

/-- The decimal digit characters. -/
def digitChar (n : Nat) : Char :=
  if n = 0 then '0' else if n = 1 then '1' else if n = 2 then '2'
  else if n = 3 then '3' else if n = 4 then '4' else if n = 5 then '5'
  else if n = 6 then '6' else if n = 7 then '7' else if n = 8 then '8'
  else '9'

/-- Fueled decimal rendering of a natural number. -/
def natCharsF : Nat → Nat → List Char
  | 0, _ => []
  | fuel + 1, n =>
    if n < 10 then [digitChar n]
    else natCharsF fuel (n / 10) ++ [digitChar (n % 10)]

/-- Python `str(i)` for an integer (decimal, `-` sign when negative). -/
def intRepr (i : Int) : List Char :=
  if i < 0 then '-' :: natCharsF (i.natAbs + 1) i.natAbs
  else natCharsF (i.natAbs + 1) i.natAbs

/-!  ### The `re.sub` scanner

`scanSub tm fuel l` walks `l` from the left.  At each position it asks the
front-matcher `tm` whether the pattern matches there; on
`some (repl, rest)` it emits `repl` and resumes after the match (`rest`),
on `none` it keeps one character and moves on — exactly Python's
non-overlapping left-to-right `re.sub`.  `fuel` bounds the number of
steps; every wrapper passes the input length, which suffices because each
step either consumes at least one character or ends the scan. -/

def scanSub (tm : List Char → Option (List Char × List Char)) : Nat → List Char → List Char
  | 0, l => l
  | _ + 1, [] => []
  | fuel + 1, c :: cs =>
    match tm (c :: cs) with
    | some (repl, rest) => repl ++ scanSub tm fuel rest
    | none => c :: scanSub tm fuel cs

/-- Split at the first `>`. -/
def splitFirstGt : List Char → Option (List Char × List Char) :=
  splitFirstCh '>'

/-- Front-matcher for an opening-tag pattern `<name[^>]*>` (IGNORECASE):
after the literal head, the match extends to the first `>` (the greedy
`[^>]*` cannot cross one).  `openPat` includes the `<`. -/
def tmOpen (openPat repl : List Char) (s : List Char) : Option (List Char × List Char) :=
  if startsWithCI openPat s then
    match splitFirstGt (s.drop openPat.length) with
    | none => none
    | some (_, rest) => some (repl, rest)
  else none

/-- Front-matcher for an element pattern `<name[^>]*>.*?</name>`
(DOTALL, IGNORECASE): the opening tag ends at the first `>`, and the lazy
`.*?` makes the match end at the first occurrence of the closing literal
after that. -/
def tmElem (openPat closePat repl : List Char) (s : List Char) : Option (List Char × List Char) :=
  if startsWithCI openPat s then
    match splitFirstGt (s.drop openPat.length) with
    | none => none
    | some (_, afterOpen) =>
      match splitFirstCI closePat afterOpen with
      | none => none
      | some (_, rest) => some (repl, rest)
  else none

/-- Front-matcher for `<(script|style)[^>]*>.*?</\1>` (DOTALL,
IGNORECASE).  The two alternatives have incompatible literal heads, so at
any position at most one branch can match; with IGNORECASE the
backreference `</\1>` matches the closing tag case-insensitively. -/
def tmScriptStyle (s : List Char) : Option (List Char × List Char) :=
  match tmElem "<script".toList "</script>".toList [] s with
  | some r => some r
  | none => tmElem "<style".toList "</style>".toList [] s

/-- Front-matcher for `<[^>]+>`: a `<`, at least one non-`>`, then the
first `>`. -/
def tmTag (s : List Char) : Option (List Char × List Char) :=
  match s with
  | c :: cs =>
    if c = '<' then
      match splitFirstGt cs with
      | none => none
      | some (a, rest) => if a = [] then none else some ([' '], rest)
    else none
  | [] => none

/-- Replacement text `&lt;image&gt;` used by `filter_media_tags`. -/
def mdRepl : List Char := "&lt;image&gt;".toList

/-- Front-matcher for the markdown-image pattern
`!\[[^\]]*\]\([^)]+\)`: literal `![`, greedy run of non-`]` up to the
first `]` (backtracking cannot choose another `]`), literal `(`, at least
one non-`)` up to the first `)`. -/
def tmMd (s : List Char) : Option (List Char × List Char) :=
  match s with
  | c1 :: c2 :: cs =>
    if c1 = '!' && c2 = '[' then
      match splitFirstCh ']' cs with
      | none => none
      | some (_, afterBr) =>
        match afterBr with
        | c3 :: inner =>
          if c3 = '(' then
            match splitFirstCh ')' inner with
            | none => none
            | some (url, rest) => if url = [] then none else some (mdRepl, rest)
          else none
        | [] => none
    else none
  | _ => none

/-- Three backticks. -/
def fence3 : List Char := [btChar, btChar, btChar]

/-- Front-matcher for ``` followed by `\w*\s*` (both greedy). -/
def tmFenceW (s : List Char) : Option (List Char × List Char) :=
  if startsWithL fence3 s then
    some ([], ((s.drop 3).dropWhile isWordC).dropWhile isWs)
  else none

/-- Front-matcher for a bare ``` occurrence. -/
def tmFence (s : List Char) : Option (List Char × List Char) :=
  if startsWithL fence3 s then some ([], s.drop 3) else none

/-- Front-matcher for inline code `` `([^`]+)` ``, replaced by its group:
an opening backtick, at least one non-backtick up to the first closing
backtick; the replacement is the captured interior. -/
def tmInline (s : List Char) : Option (List Char × List Char) :=
  match s with
  | c :: cs =>
    if c = btChar then
      match splitFirstCh btChar cs with
      | none => none
      | some (x, rest) => if x = [] then none else some (x, rest)
    else none
  | [] => none

/-- Run a front-matcher as a full `re.sub` pass. -/
def runSub (tm : List Char → Option (List Char × List Char)) (l : List Char) : List Char :=
  scanSub tm l.length l

/-- `re.sub(r'<(script|style)[^>]*>.*?</\1>', '', ·)`. -/
def scriptStyleSub (l : List Char) : List Char := runSub tmScriptStyle l

/-- `re.sub(r'<img[^>]*>', '<image>', ·)`. -/
def imgSub (l : List Char) : List Char := runSub (tmOpen "<img".toList "<image>".toList) l

/-- `re.sub(r'<video[^>]*>.*?</video>', '<video>', ·)`. -/
def videoSub (l : List Char) : List Char :=
  runSub (tmElem "<video".toList "</video>".toList "<video>".toList) l

/-- `re.sub(r'<audio[^>]*>.*?</audio>', '<audio>', ·)`. -/
def audioSub (l : List Char) : List Char :=
  runSub (tmElem "<audio".toList "</audio>".toList "<audio>".toList) l

/-- `re.sub(r'<[^>]+>', ' ', ·)` — strip all remaining tags. -/
def stripTags (l : List Char) : List Char := runSub tmTag l

/-- `re.sub(r'<img[^>]*>', '&lt;image&gt;', ·)` from `filter_media_tags`. -/
def imgEscSub (l : List Char) : List Char := runSub (tmOpen "<img".toList mdRepl) l

/-- `re.sub(r'<video[^>]*>.*?</video>', '&lt;video&gt;', ·)`. -/
def videoEscSub (l : List Char) : List Char :=
  runSub (tmElem "<video".toList "</video>".toList "&lt;video&gt;".toList) l

/-- `re.sub(r'<audio[^>]*>.*?</audio>', '&lt;audio&gt;', ·)`. -/
def audioEscSub (l : List Char) : List Char :=
  runSub (tmElem "<audio".toList "</audio>".toList "&lt;audio&gt;".toList) l

/-- `re.sub(r'!\[[^\]]*\]\([^)]+\)', '&lt;image&gt;', ·)`. -/
def mdImgSub (l : List Char) : List Char := runSub tmMd l

/-- `re.sub(r'```\w*\s*', '', ·)`. -/
def fenceWSub (l : List Char) : List Char := runSub tmFenceW l

/-- `re.sub(r'```', '', ·)`. -/
def fenceSub (l : List Char) : List Char := runSub tmFence l

/-- ``re.sub(r'`([^`]+)`', r'\1', ·)``. -/
def inlineCodeSub (l : List Char) : List Char := runSub tmInline l

/-- The cleaned text of `extract_html_body` just before truncation:
script/style removal, media placeholders, tag stripping, then
`re.sub(r'\s+', ' ', text.strip())`. -/
def cleanedText (content : List Char) : List Char :=
  collapse (pstrip (stripTags (audioSub (videoSub (imgSub (scriptStyleSub content))))))

/-- The ellipsis marker appended on truncation. -/
def ell : List Char := "...".toList

/-- The 50-word truncation step of `extract_html_body` /
`get_github_issues`. -/
def truncate50 (t : List Char) : List Char :=
  if 50 < (pyWords t).length then joinSp ((pyWords t).take 50) ++ ell else t

/-- `extract_html_body` from the source. -/
def extractHtmlBody (content : List Char) : List Char :=
  truncate50 (cleanedText content)

/-- `filter_media_tags` from the source. -/
def filterMediaTags (t : List Char) : List Char :=
  inlineCodeSub (fenceSub (fenceWSub (mdImgSub (audioEscSub (videoEscSub (imgEscSub t))))))

/-- The body summary computed by `extract_tip_info`:
`filter_media_tags (extract_html_body content)`. -/
def tipBody (content : List Char) : List Char :=
  filterMediaTags (extractHtmlBody content)

/-- The body computed for a GitHub issue by `get_github_issues`:
whitespace normalisation, `filter_media_tags`, then 50-word truncation
(note the order differs from the tip-file path). -/
def issueBody (raw : List Char) : List Char :=
  truncate50 (filterMediaTags (collapse (pstrip raw)))

/-- Attempt to match `<h1[^>]*>\s*(.*?)\s*</h1>` (DOTALL) at the front of
`s`, returning the captured group.  The `re.search` at line 128 carries
only `re.DOTALL` — no `re.IGNORECASE` — so both literals are matched
case-sensitively (`<H1>` is not accepted).  The greedy `[^>]*` ends the
opening tag at the first `>`; the greedy leading `\s*` takes the maximal
whitespace run; the lazy group then extends to the first `</h1>`, minus
the maximal whitespace run before it (consumed by the trailing `\s*`). -/
def tryH1 (s : List Char) : Option (List Char) :=
  if startsWithL "<h1".toList s then
    match splitFirstGt (s.drop 3) with
    | none => none
    | some (_, afterOpen) =>
      match splitFirstL "</h1>".toList (afterOpen.dropWhile isWs) with
      | none => none
      | some (body, _) => some (dropEndWs body)
  else none

/-- Fueled worker for `re.search` of the `<h1…>` pattern: try each start
position from the left. -/
def h1SearchF : Nat → List Char → Option (List Char)
  | 0, _ => none
  | fuel + 1, l =>
    match tryH1 l with
    | some g => some g
    | none =>
      match l with
      | [] => none
      | _ :: cs => h1SearchF fuel cs

/-- `re.search(r'<h1[^>]*>\s*(.*?)\s*</h1>', content, re.DOTALL)`,
returning the captured group of the first match. -/
def h1Search (l : List Char) : Option (List Char) :=
  h1SearchF (l.length + 1) l

/-- The default title used when the `<h1>` search fails. -/
def noTitle : List Char := "No title found".toList

/-- The title computed by `extract_tip_info`: the first `<h1…>` capture,
stripped and whitespace-collapsed, or the fixed default. -/
def titleOf (content : List Char) : List Char :=
  match h1Search content with
  | none => noTitle
  | some g => collapse (pstrip g)

/-- `re.match(r'(\d+)\.html', filename)`: with `re.match` the pattern is
anchored at the start only, so it succeeds iff the maximal leading digit
run is nonempty and is followed by the literal `.html` (anything may
follow).  Returns `int(group(1))`. -/
def tipNumPat (bn : List Char) : Option Nat :=
  if (bn.takeWhile isDigitC).isEmpty then none
  else if startsWithL ".html".toList (bn.drop (bn.takeWhile isDigitC).length) then
    some (digitsVal (bn.takeWhile isDigitC))
  else none

/-- `extract_tip_info(content, file_path)`: number from the filename
(raising `ValueError` — modelled as `Except.error` — when the pattern
fails), then title and body from the content. -/
def extractTipInfo (content file_path : List Char) : Except (List Char) (Int × List Char × List Char) :=
  match tipNumPat (pyBasename file_path) with
  | none => .error ("Cannot extract tip number from ".toList ++ pyBasename file_path)
  | some n => .ok ((n : Int), titleOf content, tipBody content)

/-- A catalogue entry (`TipInfo` in the source). -/
structure TipInfo where
  number : Int
  title : List Char
  body : List Char
  state : List Char
deriving DecidableEq, Repr

/-- The two ways an external command invocation can fail:
`calledProcess` models `subprocess.CalledProcessError` (the command ran
and exited nonzero — missing branch, no network, unauthenticated, …);
`fileNotFound` models `FileNotFoundError` (the executable itself is
missing from the system). -/
inductive SubErr where
  | calledProcess
  | fileNotFound
deriving DecidableEq, Repr

/-- `get_git_files(branch, path_pattern)`.  The outcome of the
`git ls-tree` invocation is abstracted as `res`; the function's own
`try/except subprocess.CalledProcessError` catches only that error, so a
`FileNotFoundError` propagates (the surrounding run aborts). -/
def getGitFiles (res : Except SubErr (List Char)) (path_pattern : List Char) :
    Except SubErr (List (List Char)) :=
  match res with
  | .ok out =>
    .ok ((((splitOnNl out).map pstrip).filter (fun f => !f.isEmpty)).filter
      (fun f => startsWithL (rstripStars path_pattern) f))
  | .error .calledProcess => .ok []
  | .error .fileNotFound => .error .fileNotFound

/-- `get_file_content_from_branch(branch, file_path)`; same error model
as `getGitFiles`. -/
def getFileContentFromBranch (res : Except SubErr (List Char)) : Except SubErr (List Char) :=
  match res with
  | .ok out => .ok out
  | .error .calledProcess => .ok []
  | .error .fileNotFound => .error .fileNotFound

/-- Python dict assignment `d[k] = v` on an insertion-ordered association
list: overwrite in place if the key is present, else append. -/
def dictInsert {κ α : Type} [DecidableEq κ] (k : κ) (v : α) : List (κ × α) → List (κ × α)
  | [] => [(k, v)]
  | (k0, v0) :: rest => if k0 = k then (k, v) :: rest else (k0, v0) :: dictInsert k v rest

/-- Python dict lookup `d[k]` / `k in d`. -/
def dictLookup {κ α : Type} [DecidableEq κ] (k : κ) : List (κ × α) → Option α
  | [] => none
  | (k0, v0) :: rest => if k0 = k then some v0 else dictLookup k rest

/-- Python `d.update(m)`: assign every binding of `m` into `d`, in
`m`'s iteration order. -/
def pyUpdate {κ α : Type} [DecidableEq κ] (d m : List (κ × α)) : List (κ × α) :=
  m.foldl (fun acc kv => dictInsert kv.1 kv.2 acc) d

/-- The accumulated result of `parse_tips_from_branch`: the tips dict and
the warnings printed so far. -/
structure ParseResult where
  tips : List (Int × TipInfo)
  warnings : List (List Char)
deriving DecidableEq, Repr

/-- One iteration of the loop in `parse_tips_from_branch`: skip files
whose fetched content is empty, store successful extractions in the dict,
turn a `ValueError` into a printed warning. -/
def parseStep (contentOf : List Char → List Char) (state : List Char)
    (acc : ParseResult) (fp : List Char) : ParseResult :=
  if (contentOf fp).isEmpty then acc
  else
    match extractTipInfo (contentOf fp) fp with
    | .ok (n, t, b) => ⟨dictInsert n ⟨n, t, b, state⟩ acc.tips, acc.warnings⟩
    | .error e => ⟨acc.tips, acc.warnings ++ [("Warning: ".toList ++ e)]⟩

/-- `parse_tips_from_branch(branch, state)`, with the per-file content
fetch abstracted as `contentOf` and the file list as `files`. -/
def parseTipsFromBranch (contentOf : List Char → List Char) (state : List Char)
    (files : List (List Char)) : ParseResult :=
  files.foldl (parseStep contentOf state) ⟨[], []⟩

/-- A key of the `all_tips` dict in `main()`: a tip number (int) or an
`issue_<i>` string. -/
inductive PyKey where
  | int (n : Int)
  | str (s : List Char)
deriving DecidableEq, Repr

/-- Escape pipes for a markdown table cell: `s.replace('|', '\\|')`. -/
def escPipes : List Char → List Char
  | [] => []
  | c :: cs => if c = '|' then '\\' :: '|' :: escPipes cs else c :: escPipes cs

/-- A data row for a numbered tip: `f"| {num} | {title} | {body} | {state} |"`
with pipes escaped in title and body. -/
def rowNum (n : Int) (t : TipInfo) : List Char :=
  "| ".toList ++ intRepr n ++ " | ".toList ++ escPipes t.title ++ " | ".toList ++
    escPipes t.body ++ " | ".toList ++ t.state ++ " |".toList

/-- A data row for an issue-derived tip: `f"|  | {title} | {body} | {state} |"`
(blank identifier column). -/
def rowIssue (t : TipInfo) : List Char :=
  "|  | ".toList ++ escPipes t.title ++ " | ".toList ++ escPipes t.body ++ " | ".toList ++
    t.state ++ " |".toList

/-- The four fixed lines at the top of the catalogue. -/
def headerLines : List (List Char) :=
  ["# Galaxy Tips Catalogue".toList, [],
   "| Tip # | Title | Body | State |".toList,
   "|-------|-------|------|-------|".toList]

/-- The `numbered_tips` dict of `generate_catalogue`: the entries of
`all_tips` whose key is an int, in iteration order. -/
def numberedOf (tips : List (PyKey × TipInfo)) : List (Int × TipInfo) :=
  tips.foldl
    (fun acc kv =>
      match kv.1 with
      | .int n => dictInsert n kv.2 acc
      | .str _ => acc) []

/-- The `issue_tips` list of `generate_catalogue`: the entries of
`all_tips` whose key is not an int, in iteration order. -/
def issuesOf (tips : List (PyKey × TipInfo)) : List TipInfo :=
  tips.foldl
    (fun acc kv =>
      match kv.1 with
      | .int _ => acc
      | .str _ => acc ++ [kv.2]) []

/-- `sorted(numbered_tips.keys())`. -/
def sortedKeys (tips : List (PyKey × TipInfo)) : List Int :=
  List.insertionSort (· ≤ ·) ((numberedOf tips).map Prod.fst)

/-- Dict indexing `numbered_tips[tip_num]` (total here; the keys iterated
over always come from the dict itself). -/
def lookupTip (n : Int) (d : List (Int × TipInfo)) : TipInfo :=
  (dictLookup n d).getD ⟨0, [], [], []⟩

/-- The data rows of the catalogue: numbered tips sorted by number, then
issue tips in insertion order. -/
def catRows (tips : List (PyKey × TipInfo)) : List (List Char) :=
  (sortedKeys tips).map (fun n => rowNum n (lookupTip n (numberedOf tips))) ++
    (issuesOf tips).map rowIssue

/-- The `content` list built by `generate_catalogue`. -/
def catalogueLines (tips : List (PyKey × TipInfo)) : List (List Char) :=
  headerLines ++ catRows tips

/-- `generate_catalogue(all_tips)`: `"\n".join(content) + "\n"`. -/
def generateCatalogue (tips : List (PyKey × TipInfo)) : List Char :=
  joinNl (catalogueLines tips) ++ ['\n']

/-- Tag an int-keyed dict into `all_tips` keys. -/
def tagInt (d : List (Int × TipInfo)) : List (PyKey × TipInfo) :=
  d.map (fun kv => (PyKey.int kv.1, kv.2))

/-- The merge in `main()`:
`all_tips.update(dev_tips); all_tips.update(main_tips)` —
dev first, then main overriding. -/
def mergeBranches (devTips mainTips : List (Int × TipInfo)) : List (PyKey × TipInfo) :=
  pyUpdate (pyUpdate [] (tagInt devTips)) (tagInt mainTips)

/-- Worker for `unescapedPipes`: the flag records whether the previous
character was a backslash. -/
def unescPipesAux : Bool → List Char → Nat
  | _, [] => 0
  | prevBs, c :: cs => (if c = '|' && !prevBs then 1 else 0) + unescPipesAux (c = '\\') cs

/-- Number of unescaped (column-delimiting) pipes: pipes not immediately
preceded by a backslash. -/
def unescapedPipes (l : List Char) : Nat :=
  unescPipesAux false l

/-- The header row of the table. -/
def headerRow : List Char := "| Tip # | Title | Body | State |".toList

/-!  ### Spec-side predicates -/

/-- The spec's filename shape `<digits>.<extension>`: a nonempty digit
run, a dot, a nonempty extension. -/
def specNamePat (bn : List Char) : Bool :=
  !(bn.takeWhile isDigitC).isEmpty &&
    (match bn.drop (bn.takeWhile isDigitC).length with
     | '.' :: e => !e.isEmpty
     | _ => false)

/-- Does the text contain a substring matching `<img[^>]*>`
(IGNORECASE)?  Such a substring exists iff some suffix starts with
`<img` and a `>` occurs after that head. -/
def hasImgTag (l : List Char) : Bool :=
  anySuffix (fun s => startsWithCI "<img".toList s && (s.drop 4).contains '>') l

/-- Does the text contain `</video>` (case-insensitively)?  A verbatim
`<video…>…</video>` element necessarily contains this closing tag. -/
def hasCloseVideo (l : List Char) : Bool :=
  anySuffix (startsWithCI "</video>".toList) l

/-- Does the text contain `</audio>` (case-insensitively)? -/
def hasCloseAudio (l : List Char) : Bool :=
  anySuffix (startsWithCI "</audio>".toList) l

/-- Does the text contain a verbatim markdown image
`![alt](url)` (a match of the program's own markdown-image pattern)? -/
def hasMdImage (l : List Char) : Bool :=
  anySuffix (fun s => (tmMd s).isSome) l

/-- Case-sensitive substring test. -/
def containsStr (pat l : List Char) : Bool :=
  anySuffix (startsWithL pat) l

/-- `re.match(r'^\s*\[tip request\]', title, re.IGNORECASE)`: anchored at
the start, a maximal leading whitespace run followed by the literal
`[tip request]` case-insensitively. -/
def tipReqPat (t : List Char) : Bool :=
  startsWithCI "[tip request]".toList (t.dropWhile isWs)

/-- `re.sub(r'^\s*\[tip request\]\s*', '', title, flags=re.IGNORECASE).strip()`:
remove the anchored prefix (leading whitespace, the literal, its trailing
whitespace run) once, then `strip()`; only evaluated on titles matched by
`tipReqPat`. -/
def cleanIssueTitle (t : List Char) : List Char :=
  pstrip (((t.dropWhile isWs).drop "[tip request]".toList.length).dropWhile isWs)

/-- The issue-processing loop of `get_github_issues` over the parsed
`(title, body)` pairs: keep the issues whose title matches `tipReqPat`;
each yields number 0, the cleaned title, the normalised / filtered /
truncated body, and state `requested`. -/
def issuesFromData (issues : List (List Char × List Char)) : List TipInfo :=
  (issues.filter (fun i => tipReqPat i.1)).map
    (fun i => ⟨0, cleanIssueTitle i.1, issueBody i.2, "requested".toList⟩)

/-- Front test for one position of
`re.search(r'github\.com[:/]([^/]+)/([^/\.]+)', remote_url)`: the literal
`github.com`, one of `:` or `/`, then a nonempty owner run (a greedy
`[^/]+` followed by `/` can only end at the first `/`), then at least one
character that is neither `/` nor `.`. -/
def tmRepo (s : List Char) : Bool :=
  startsWithL "github.com".toList s &&
  (match s.drop 10 with
   | c :: cs =>
     (c = ':' || c = '/') &&
     (match splitFirstCh '/' cs with
      | none => false
      | some (own, rest) =>
        !own.isEmpty &&
        (match rest with
         | d :: _ => !(d = '/' || d = '.')
         | [] => false))
   | [] => false)

/-- Does the owner/repo pattern match anywhere in the remote URL? -/
def hasRepoMatch (url : List Char) : Bool := anySuffix tmRepo url

/-- `get_github_issues()`, with its two subprocess invocations
abstracted: `remoteRes` is the outcome of `git remote get-url origin`
(its stdout on success) and `ghRes` is the outcome of `gh issue list`
(the parsed `(title, body)` pairs on success).  The outer
`try/except subprocess.CalledProcessError` wraps the whole body, so a
`FileNotFoundError` raised by the `git` call propagates and aborts the
run; the inner `except (subprocess.CalledProcessError,
FileNotFoundError)` around the `gh` call catches both error kinds and
returns no issues; a non-GitHub or unparsable remote URL also yields no
issues. -/
def getGithubIssues (remoteRes : Except SubErr (List Char))
    (ghRes : Except SubErr (List (List Char × List Char))) :
    Except SubErr (List TipInfo) :=
  match remoteRes with
  | .error .calledProcess => .ok []
  | .error .fileNotFound => .error .fileNotFound
  | .ok out =>
    if containsStr "github.com".toList (pstrip out) then
      if hasRepoMatch (pstrip out) then
        match ghRes with
        | .error _ => .ok []
        | .ok issues => .ok (issuesFromData issues)
      else .ok []
    else .ok []

/-- The structural invariant behind media-freedom of the pipeline output:
after every `<` in the text, either no `>` ever occurs, or the very next
character is `>`.  Tag stripping establishes this and every later pass
preserves it; it rules out any substring of the shape `<x…>` with a
nonempty interior — in particular `<img…>`, `</video>`, `</audio>`. -/
def OKS (l : List Char) : Prop :=
  ∀ a b, l = a ++ '<' :: b → b = [] ∨ (∃ b2, b = '>' :: b2) ∨ '>' ∉ b

/-! ## Helper lemmas -/

theorem startsWithL_cons_iff {p : Char} {ps l : List Char} :
    startsWithL (p :: ps) l = true ↔ ∃ cs, l = p :: cs ∧ startsWithL ps cs = true := by
  cases l with
  | nil => simp [startsWithL]
  | cons c cs =>
    simp only [startsWithL, Bool.and_eq_true, decide_eq_true_eq]
    constructor
    · rintro ⟨h1, h2⟩
      exact ⟨cs, by rw [h1], h2⟩
    · rintro ⟨cs', hEq, h2⟩
      cases hEq
      exact ⟨rfl, h2⟩

theorem parse_foldl_tips_congr (co : List Char → List Char) (st : List Char) :
    ∀ (files : List (List Char)) (a1 a2 : ParseResult), a1.tips = a2.tips →
      (files.foldl (parseStep co st) a1).tips = (files.foldl (parseStep co st) a2).tips := by
  intro files
  induction files with
  | nil => intro a1 a2 h; exact h
  | cons f fs ih =>
    intro a1 a2 h
    simp only [List.foldl_cons]
    apply ih
    unfold parseStep
    by_cases hc : (co f).isEmpty
    · simp [hc, h]
    · simp only [hc, Bool.false_eq_true, if_false]
      cases hx : extractTipInfo (co f) f with
      | ok v => obtain ⟨n, t, b⟩ := v; simp [h]
      | error e => simp [h]

theorem dictLookup_dictInsert_self {κ α : Type} [DecidableEq κ] (k : κ) (v : α) :
    ∀ d : List (κ × α), dictLookup k (dictInsert k v d) = some v := by
  intro d
  induction d with
  | nil => simp [dictInsert, dictLookup]
  | cons kv rest ih =>
    obtain ⟨k0, v0⟩ := kv
    by_cases h : k0 = k
    · simp [dictInsert, dictLookup, h]
    · simp [dictInsert, dictLookup, h, ih]

theorem dictLookup_dictInsert_ne {κ α : Type} [DecidableEq κ] {k k' : κ} (v : α)
    (hne : k' ≠ k) : ∀ d : List (κ × α), dictLookup k (dictInsert k' v d) = dictLookup k d := by
  intro d
  induction d with
  | nil => simp [dictInsert, dictLookup, hne]
  | cons kv rest ih =>
    obtain ⟨k0, v0⟩ := kv
    by_cases h : k0 = k'
    · subst h
      simp [dictInsert, dictLookup, hne]
    · simp [dictInsert, dictLookup, h, ih]

theorem mem_map_fst_dictInsert {κ α : Type} [DecidableEq κ] {j k : κ} (v : α) :
    ∀ d : List (κ × α), j ∈ (dictInsert k v d).map Prod.fst ↔ j = k ∨ j ∈ d.map Prod.fst := by
  intro d
  induction d with
  | nil => simp [dictInsert]
  | cons kv rest ih =>
    obtain ⟨k0, v0⟩ := kv
    by_cases h : k0 = k
    · subst h
      simp [dictInsert]
    · simp only [dictInsert, if_neg h, List.map_cons, List.mem_cons, ih]
      tauto

theorem nodup_map_fst_dictInsert {κ α : Type} [DecidableEq κ] (k : κ) (v : α) :
    ∀ d : List (κ × α), (d.map Prod.fst).Nodup → ((dictInsert k v d).map Prod.fst).Nodup := by
  intro d
  induction d with
  | nil => simp [dictInsert]
  | cons kv rest ih =>
    obtain ⟨k0, v0⟩ := kv
    intro h
    rw [List.map_cons, List.nodup_cons] at h
    by_cases hk : k0 = k
    · subst hk
      simpa [dictInsert, List.nodup_cons] using h
    · rw [dictInsert, if_neg hk, List.map_cons, List.nodup_cons]
      refine ⟨?_, ih h.2⟩
      rw [mem_map_fst_dictInsert]
      rintro (rfl | hmem)
      · exact hk rfl
      · exact h.1 hmem

theorem parse_foldl_tips_nodup (co : List Char → List Char) (st : List Char) :
    ∀ (files : List (List Char)) (acc : ParseResult), (acc.tips.map Prod.fst).Nodup →
      (((files.foldl (parseStep co st) acc).tips).map Prod.fst).Nodup := by
  intro files
  induction files with
  | nil => intro acc h; exact h
  | cons f fs ih =>
    intro acc h
    simp only [List.foldl_cons]
    apply ih
    unfold parseStep
    by_cases hc : (co f).isEmpty
    · simp [hc, h]
    · simp only [hc, Bool.false_eq_true, if_false]
      cases hx : extractTipInfo (co f) f with
      | ok v => obtain ⟨n, t, b⟩ := v; exact nodup_map_fst_dictInsert _ _ _ h
      | error e => exact h

theorem tipNumPat_some_specNamePat {bn : List Char} {n : ℕ} (h : tipNumPat bn = some n) :
    specNamePat bn = true := by
  unfold tipNumPat at h
  by_cases h1 : (bn.takeWhile isDigitC).isEmpty = true
  · rw [if_pos h1] at h
    exact Option.noConfusion h
  · rw [if_neg h1] at h
    by_cases h2 : startsWithL ".html".toList (bn.drop (bn.takeWhile isDigitC).length) = true
    · have h2' := h2
      rw [show (".html".toList : List Char) = '.' :: "html".toList from rfl,
        startsWithL_cons_iff] at h2'
      obtain ⟨cs, hEq, h3⟩ := h2'
      rw [show ("html".toList : List Char) = 'h' :: "tml".toList from rfl,
        startsWithL_cons_iff] at h3
      obtain ⟨cs', hEq', _⟩ := h3
      unfold specNamePat
      rw [hEq, hEq']
      simp [h1]
    · rw [if_neg h2] at h
      exact Option.noConfusion h

/-! ## Claim theorems and company -/

/-- C2, counterexample: when the external tool itself is missing
(`FileNotFoundError`), `get_git_files` does not catch the failure — it
propagates instead of being treated as an empty file list, so the run
aborts, contradicting the claim that every such failure is caught. -/
theorem claim_C2_counterexample :
    getGitFiles (Except.error SubErr.fileNotFound) "tips/*".toList =
      Except.error SubErr.fileNotFound ∧
    getGitFiles (Except.error SubErr.fileNotFound) "tips/*".toList ≠
      Except.ok [] := by
  exact ⟨rfl, fun h => Except.noConfusion h⟩

/-- C2, amended: failures of the external commands that surface as
`subprocess.CalledProcessError` (the tool ran but exited nonzero: no
network, unauthenticated, missing branch or file) are caught in all
three helpers and treated as an empty result — empty file list, empty
file content, or no issues — and at the `gh issue list` invocation even
a missing executable (`FileNotFoundError`) is caught and degrades to no
issues, so in all those cases the run continues; but a missing `git`
executable is caught neither by `get_git_files` /
`get_file_content_from_branch` (see the counterexample) nor by the outer
handler of `get_github_issues`, and aborts the run. -/
theorem claim_C2 :
    (∀ path_pattern : List Char,
      getGitFiles (Except.error SubErr.calledProcess) path_pattern = Except.ok [] ∧
      getFileContentFromBranch (Except.error SubErr.calledProcess) = Except.ok []) ∧
    (∀ ghRes, getGithubIssues (Except.error SubErr.calledProcess) ghRes = Except.ok []) ∧
    (∀ out e, getGithubIssues (Except.ok out) (Except.error e) = Except.ok []) ∧
    (∀ ghRes, getGithubIssues (Except.error SubErr.fileNotFound) ghRes =
      Except.error SubErr.fileNotFound) := by
  refine ⟨fun pat => ⟨rfl, rfl⟩, fun ghRes => rfl, fun out e => ?_, fun ghRes => rfl⟩
  show (if containsStr "github.com".toList (pstrip out) = true then
      if hasRepoMatch (pstrip out) = true then
        (match (Except.error e : Except SubErr (List (List Char × List Char))) with
          | .error _ => (Except.ok [] : Except SubErr (List TipInfo))
          | .ok issues => Except.ok (issuesFromData issues))
      else Except.ok []
    else Except.ok []) = Except.ok []
  split_ifs <;> rfl

/-- C9: a tip file whose fetched content is empty is skipped before
extraction: it contributes no entry and no warning, whatever its
filename, and the branch parse is exactly as if the file were absent. -/
theorem claim_C9 :
    ∀ (contentOf : List Char → List Char) (state : List Char)
      (pre post : List (List Char)) (f : List Char), contentOf f = [] →
      parseTipsFromBranch contentOf state (pre ++ f :: post) =
        parseTipsFromBranch contentOf state (pre ++ post) := by
  intro co st pre post f h
  unfold parseTipsFromBranch
  rw [show pre ++ f :: post = (pre ++ [f]) ++ post by simp, List.foldl_append,
    List.foldl_append, List.foldl_append]
  have hstep : ∀ acc : ParseResult, List.foldl (parseStep co st) acc [f] = acc := by
    intro acc
    simp [parseStep, h]
  rw [hstep]

/-- C9, witness at a concrete input: a file list containing a file with
empty content parses exactly like the list without it. -/
theorem claim_C9_witness :
    (fun fp => if fp = "tips/1.html".toList then "<h1>A</h1>".toList else ([] : List Char))
        "tips/gone.html".toList = [] ∧
    parseTipsFromBranch
        (fun fp => if fp = "tips/1.html".toList then "<h1>A</h1>".toList else [])
        "production".toList (["tips/1.html".toList] ++ "tips/gone.html".toList :: []) =
      parseTipsFromBranch
        (fun fp => if fp = "tips/1.html".toList then "<h1>A</h1>".toList else [])
        "production".toList (["tips/1.html".toList] ++ []) := by
  refine ⟨by decide, ?_⟩
  exact claim_C9 _ _ ["tips/1.html".toList] [] "tips/gone.html".toList (by decide)

/-- C6: a file whose basename does not have the shape
`<digits>.<extension>` makes `extract_tip_info` raise (the code in fact
demands `<digits>.html…`, which is a subcase), the file contributes no
entry to the branch mapping, and the entries from the other files are
unchanged. -/
theorem claim_C6 :
    ∀ (contentOf : List Char → List Char) (state : List Char)
      (pre post : List (List Char)) (f : List Char),
      specNamePat (pyBasename f) = false →
      (∃ e, extractTipInfo (contentOf f) f = Except.error e) ∧
      (parseTipsFromBranch contentOf state (pre ++ f :: post)).tips =
        (parseTipsFromBranch contentOf state (pre ++ post)).tips := by
  intro co st pre post f h
  have hnum : tipNumPat (pyBasename f) = none := by
    cases hx : tipNumPat (pyBasename f) with
    | none => rfl
    | some n =>
      rw [tipNumPat_some_specNamePat hx] at h
      exact Bool.noConfusion h
  have he : extractTipInfo (co f) f =
      Except.error ("Cannot extract tip number from ".toList ++ pyBasename f) := by
    unfold extractTipInfo
    rw [hnum]
  constructor
  · exact ⟨_, he⟩
  · unfold parseTipsFromBranch
    rw [show pre ++ f :: post = (pre ++ [f]) ++ post by simp, List.foldl_append,
      List.foldl_append, List.foldl_append]
    apply parse_foldl_tips_congr
    simp only [List.foldl_cons, List.foldl_nil]
    unfold parseStep
    by_cases hc : (co f).isEmpty = true
    · rw [if_pos hc]
    · rw [if_neg hc, he]

/-- C6, witness at a concrete input: `tips/readme.txt` fails the pattern,
is skipped, and leaves the other file's entry intact. -/
theorem claim_C6_witness :
    specNamePat (pyBasename "tips/readme.txt".toList) = false ∧
    ((∃ e, extractTipInfo ((fun _ => "<h1>T</h1>".toList) "tips/readme.txt".toList)
        "tips/readme.txt".toList = Except.error e) ∧
      (parseTipsFromBranch (fun _ => "<h1>T</h1>".toList) "draft".toList
          (["tips/1.html".toList] ++ "tips/readme.txt".toList :: [])).tips =
        (parseTipsFromBranch (fun _ => "<h1>T</h1>".toList) "draft".toList
          (["tips/1.html".toList] ++ [])).tips) := by
  refine ⟨by decide, ?_⟩
  exact claim_C6 _ _ ["tips/1.html".toList] [] "tips/readme.txt".toList (by decide)

/-- C10: (a) the branch mapping always holds at most one entry per
numeric identifier (its key list is duplicate-free); (b) when two files
in the list yield the same identifier, the later file's entry silently
replaces the earlier one — the lookup returns the later title/body and no
warning is recorded for either file. -/
theorem claim_C10 :
    (∀ (contentOf : List Char → List Char) (state : List Char) (files : List (List Char)),
      (((parseTipsFromBranch contentOf state files).tips).map Prod.fst).Nodup) ∧
    (∀ (contentOf : List Char → List Char) (state : List Char) (pre : List (List Char))
      (f g : List Char) (n : Int) (tf bf tg bg : List Char),
      contentOf f ≠ [] → contentOf g ≠ [] →
      extractTipInfo (contentOf f) f = Except.ok (n, tf, bf) →
      extractTipInfo (contentOf g) g = Except.ok (n, tg, bg) →
      dictLookup n (parseTipsFromBranch contentOf state (pre ++ [f, g])).tips =
        some ⟨n, tg, bg, state⟩ ∧
      (parseTipsFromBranch contentOf state (pre ++ [f, g])).warnings =
        (parseTipsFromBranch contentOf state pre).warnings) := by
  constructor
  · intro co st files
    exact parse_foldl_tips_nodup co st files ⟨[], []⟩ (by simp)
  · intro co st pre f g n tf bf tg bg hf hg hef heg
    unfold parseTipsFromBranch
    rw [List.foldl_append]
    have hf' : (co f).isEmpty = false := List.isEmpty_eq_false.mpr hf
    have hg' : (co g).isEmpty = false := List.isEmpty_eq_false.mpr hg
    simp only [List.foldl_cons, List.foldl_nil]
    rw [show parseStep co st (List.foldl (parseStep co st) ⟨[], []⟩ pre) f =
        ⟨dictInsert n ⟨n, tf, bf, st⟩ (List.foldl (parseStep co st) ⟨[], []⟩ pre).tips,
          (List.foldl (parseStep co st) ⟨[], []⟩ pre).warnings⟩ by
      unfold parseStep
      rw [hf', hef]
      rfl]
    rw [show ∀ tips warnings, parseStep co st ⟨tips, warnings⟩ g =
        ⟨dictInsert n ⟨n, tg, bg, st⟩ tips, warnings⟩ from by
      intro tips warnings
      unfold parseStep
      rw [hg', heg]
      rfl]
    exact ⟨dictLookup_dictInsert_self _ _ _, rfl⟩

theorem mem_dictInsert {κ α : Type} [DecidableEq κ] {kv : κ × α} {k : κ} {v : α} :
    ∀ d : List (κ × α), kv ∈ dictInsert k v d → kv = (k, v) ∨ kv ∈ d := by
  intro d
  induction d with
  | nil => simp [dictInsert]
  | cons kv0 rest ih =>
    obtain ⟨k0, v0⟩ := kv0
    by_cases h : k0 = k
    · subst h
      intro hm
      rw [dictInsert, if_pos rfl] at hm
      rcases List.mem_cons.mp hm with h1 | h1
      · exact Or.inl h1
      · exact Or.inr (List.mem_cons_of_mem _ h1)
    · simp only [dictInsert, if_neg h, List.mem_cons]
      rintro (rfl | hm)
      · right
        left
        rfl
      · rcases ih hm with h1 | h1
        · exact Or.inl h1
        · exact Or.inr (Or.inr h1)

theorem dictLookup_mem {κ α : Type} [DecidableEq κ] {k : κ} {v : α} :
    ∀ d : List (κ × α), dictLookup k d = some v → (k, v) ∈ d := by
  intro d
  induction d with
  | nil => intro h; exact Option.noConfusion h
  | cons kv rest ih =>
    obtain ⟨k0, v0⟩ := kv
    by_cases h : k0 = k
    · subst h
      intro hl
      rw [dictLookup, if_pos rfl] at hl
      injection hl with hv
      subst hv
      exact List.mem_cons_self _ _
    · intro hl
      rw [dictLookup, if_neg h] at hl
      exact List.mem_cons_of_mem _ (ih hl)

theorem dictLookup_isSome_of_mem_keys {κ α : Type} [DecidableEq κ] {k : κ} :
    ∀ d : List (κ × α), k ∈ d.map Prod.fst → ∃ v, dictLookup k d = some v := by
  intro d
  induction d with
  | nil => intro h; simp at h
  | cons kv rest ih =>
    obtain ⟨k0, v0⟩ := kv
    intro h
    by_cases hk : k0 = k
    · exact ⟨v0, by rw [dictLookup, if_pos hk]⟩
    · rcases List.mem_cons.mp h with h1 | h1
      · exact absurd h1.symm hk
      · obtain ⟨v, hv⟩ := ih h1
        exact ⟨v, by rw [dictLookup, if_neg hk]; exact hv⟩

theorem pyUpdate_cons {κ α : Type} [DecidableEq κ] (d : List (κ × α)) (kv : κ × α)
    (m : List (κ × α)) : pyUpdate d (kv :: m) = pyUpdate (dictInsert kv.1 kv.2 d) m := rfl

theorem dictLookup_pyUpdate_not_mem {κ α : Type} [DecidableEq κ] {k : κ} :
    ∀ (m d : List (κ × α)), k ∉ m.map Prod.fst →
      dictLookup k (pyUpdate d m) = dictLookup k d := by
  intro m
  induction m with
  | nil => intro d _; rfl
  | cons kv m' ih =>
    intro d h
    simp only [List.map_cons, List.mem_cons, not_or] at h
    rw [pyUpdate_cons, ih _ h.2, dictLookup_dictInsert_ne _ (fun hk => h.1 hk.symm)]

theorem dictLookup_pyUpdate_mem {κ α : Type} [DecidableEq κ] {k : κ} :
    ∀ (m d : List (κ × α)), (m.map Prod.fst).Nodup → k ∈ m.map Prod.fst →
      dictLookup k (pyUpdate d m) = dictLookup k m := by
  intro m
  induction m with
  | nil => intro d _ h; simp at h
  | cons kv m' ih =>
    intro d hnd hmem
    obtain ⟨k0, v0⟩ := kv
    rw [List.map_cons, List.nodup_cons] at hnd
    by_cases hk : k = k0
    · subst hk
      rw [pyUpdate_cons, dictLookup_pyUpdate_not_mem m' _ hnd.1, dictLookup,
        if_pos rfl]
      exact dictLookup_dictInsert_self _ _ _
    · rw [List.map_cons] at hmem
      rcases List.mem_cons.mp hmem with h1 | h1
      · exact absurd h1 hk
      · rw [pyUpdate_cons, ih _ hnd.2 h1, dictLookup, if_neg (Ne.symm hk)]

theorem dictLookup_tagInt {k : Int} : ∀ d : List (Int × TipInfo),
    dictLookup (PyKey.int k) (tagInt d) = dictLookup k d := by
  intro d
  induction d with
  | nil => rfl
  | cons kv rest ih =>
    obtain ⟨k0, v0⟩ := kv
    rw [show tagInt ((k0, v0) :: rest) = (PyKey.int k0, v0) :: tagInt rest from rfl]
    by_cases h : k0 = k
    · subst h
      rw [dictLookup, if_pos rfl, dictLookup, if_pos rfl]
    · rw [dictLookup, if_neg (fun hc => h (by injection hc)), dictLookup, if_neg h]
      exact ih

theorem tagInt_map_fst (d : List (Int × TipInfo)) :
    (tagInt d).map Prod.fst = (d.map Prod.fst).map PyKey.int := by
  induction d with
  | nil => rfl
  | cons kv rest ih => simp [tagInt, ih]

theorem tagInt_keys_nodup {d : List (Int × TipInfo)} (h : (d.map Prod.fst).Nodup) :
    ((tagInt d).map Prod.fst).Nodup := by
  rw [tagInt_map_fst]
  exact h.map (fun a b hab => by injection hab)

/-- C4: merging gives the main branch precedence — for any identifier
present in the main mapping, the merged catalogue holds the main entry
(title, body and state), never the dev one; and the concrete end-to-end
scenario of the spec renders exactly the two expected rows, sorted by
identifier. -/
theorem claim_C4 :
    (∀ (devTips mainTips : List (Int × TipInfo)) (k : Int),
      (mainTips.map Prod.fst).Nodup → k ∈ mainTips.map Prod.fst →
      dictLookup (PyKey.int k) (mergeBranches devTips mainTips) = dictLookup k mainTips) ∧
    catalogueLines (mergeBranches
        [(1, ⟨1, "Title B".toList, [], "draft".toList⟩),
         (2, ⟨2, "Title C".toList, [], "draft".toList⟩)]
        [(1, ⟨1, "Title A".toList, [], "production".toList⟩)]) =
      headerLines ++ ["| 1 | Title A |  | production |".toList,
        "| 2 | Title C |  | draft |".toList] := by
  constructor
  · intro dev main k hnd hmem
    unfold mergeBranches
    rw [dictLookup_pyUpdate_mem (tagInt main) _ (tagInt_keys_nodup hnd)
      (by rw [tagInt_map_fst]; exact List.mem_map_of_mem _ hmem)]
    exact dictLookup_tagInt main
  · rfl

/-- C4, witness at a concrete instance of the precedence statement. -/
theorem claim_C4_witness :
    (([((1 : Int), (⟨1, "Title A".toList, [], "production".toList⟩ : TipInfo))].map
        Prod.fst).Nodup) ∧
    (1 : Int) ∈ [((1 : Int), (⟨1, "Title A".toList, [], "production".toList⟩ : TipInfo))].map
        Prod.fst ∧
    dictLookup (PyKey.int 1) (mergeBranches
        [(1, ⟨1, "Title B".toList, [], "draft".toList⟩)]
        [(1, ⟨1, "Title A".toList, [], "production".toList⟩)]) =
      dictLookup 1 [((1 : Int), (⟨1, "Title A".toList, [], "production".toList⟩ : TipInfo))] := by
  refine ⟨by decide, by decide, ?_⟩
  exact claim_C4.1 [(1, ⟨1, "Title B".toList, [], "draft".toList⟩)]
    [(1, ⟨1, "Title A".toList, [], "production".toList⟩)] 1 (by decide) (by decide)

theorem unescPipesAux_flag_irrel {l : List Char} (h : l.head? ≠ some '|') (f g : Bool) :
    unescPipesAux f l = unescPipesAux g l := by
  cases l with
  | nil => rfl
  | cons c cs =>
    have hc : c ≠ '|' := by
      intro hc
      exact h (by rw [hc]; rfl)
    simp [unescPipesAux, hc]

theorem unescPipesAux_append {b : List Char} (hb : b.head? ≠ some '|') :
    ∀ (a : List Char) (f : Bool),
      unescPipesAux f (a ++ b) = unescPipesAux f a + unescPipesAux false b := by
  intro a
  induction a with
  | nil =>
    intro f
    simpa [unescPipesAux] using unescPipesAux_flag_irrel hb f false
  | cons c a' ih =>
    intro f
    simp [unescPipesAux, ih, Nat.add_assoc]

theorem unescPipesAux_escPipes : ∀ (t : List Char) (f : Bool),
    unescPipesAux f (escPipes t) = 0 := by
  intro t
  induction t with
  | nil => intro f; rfl
  | cons c ts ih =>
    intro f
    by_cases h : c = '|'
    · subst h
      simp [escPipes, unescPipesAux, ih]
    · simp [escPipes, h, unescPipesAux, ih]

theorem escPipes_head_ne {t : List Char} : (escPipes t).head? ≠ some '|' := by
  cases t with
  | nil => simp [escPipes]
  | cons c cs =>
    by_cases h : c = '|'
    · subst h
      simp [escPipes]
    · simp [escPipes, h]

theorem noPipe_unescPipesAux {l : List Char} (h : '|' ∉ l) :
    ∀ f, unescPipesAux f l = 0 := by
  induction l with
  | nil => intro f; rfl
  | cons c cs ih =>
    intro f
    simp only [List.mem_cons, not_or] at h
    have hc : c ≠ '|' := fun hc => h.1 hc.symm
    simp [unescPipesAux, hc, ih h.2]

theorem noPipe_head_ne {l : List Char} (h : '|' ∉ l) : l.head? ≠ some '|' := by
  cases l with
  | nil => simp
  | cons c cs =>
    simp only [List.head?_cons, ne_eq, Option.some.injEq]
    intro hc
    exact h (by rw [hc]; exact List.mem_cons_self _ _)

theorem digitChar_ne_pipe (n : Nat) : digitChar n ≠ '|' := by
  unfold digitChar
  split_ifs <;> decide

theorem mem_natCharsF {c : Char} : ∀ (f n : Nat), c ∈ natCharsF f n → ∃ m, c = digitChar m := by
  intro f
  induction f with
  | zero => intro n h; simp [natCharsF] at h
  | succ f' ih =>
    intro n h
    rw [natCharsF] at h
    by_cases hn : n < 10
    · rw [if_pos hn] at h
      simp at h
      exact ⟨n, h⟩
    · rw [if_neg hn] at h
      rcases List.mem_append.mp h with h1 | h1
      · exact ih _ h1
      · simp at h1
        exact ⟨n % 10, h1⟩

theorem intRepr_no_pipe {i : Int} : '|' ∉ intRepr i := by
  intro hmem
  unfold intRepr at hmem
  split_ifs at hmem
  · rcases List.mem_cons.mp hmem with h1 | h1
    · exact absurd h1 (by decide)
    · obtain ⟨m, hm⟩ := mem_natCharsF _ _ h1
      exact digitChar_ne_pipe m hm.symm
  · obtain ⟨m, hm⟩ := mem_natCharsF _ _ hmem
    exact digitChar_ne_pipe m hm.symm

theorem unescapedPipes_rowNum {n : Int} {t : TipInfo} (h : '|' ∉ t.state) :
    unescapedPipes (rowNum n t) = 5 := by
  unfold rowNum unescapedPipes
  rw [unescPipesAux_append (by decide)]
  rw [unescPipesAux_append (noPipe_head_ne h)]
  rw [unescPipesAux_append (by decide)]
  rw [unescPipesAux_append escPipes_head_ne]
  rw [unescPipesAux_append (by decide)]
  rw [unescPipesAux_append escPipes_head_ne]
  rw [unescPipesAux_append (by decide)]
  rw [unescPipesAux_append (noPipe_head_ne intRepr_no_pipe)]
  rw [unescPipesAux_escPipes, unescPipesAux_escPipes, noPipe_unescPipesAux h,
    noPipe_unescPipesAux intRepr_no_pipe]
  decide

theorem unescapedPipes_rowIssue {t : TipInfo} (h : '|' ∉ t.state) :
    unescapedPipes (rowIssue t) = 5 := by
  unfold rowIssue unescapedPipes
  rw [unescPipesAux_append (by decide)]
  rw [unescPipesAux_append (noPipe_head_ne h)]
  rw [unescPipesAux_append (by decide)]
  rw [unescPipesAux_append escPipes_head_ne]
  rw [unescPipesAux_append (by decide)]
  rw [unescPipesAux_append escPipes_head_ne]
  rw [unescPipesAux_escPipes, unescPipesAux_escPipes, noPipe_unescPipesAux h]
  decide

theorem numberedOf_mem :
    ∀ (tips : List (PyKey × TipInfo)) (acc : List (Int × TipInfo)) (kv : Int × TipInfo),
      kv ∈ tips.foldl
        (fun acc kv =>
          match kv.1 with
          | PyKey.int n => dictInsert n kv.2 acc
          | PyKey.str _ => acc) acc →
      kv ∈ acc ∨ (PyKey.int kv.1, kv.2) ∈ tips := by
  intro tips
  induction tips with
  | nil => intro acc kv h; exact Or.inl h
  | cons t ts ih =>
    intro acc kv h
    rw [List.foldl_cons] at h
    rcases ih _ _ h with h1 | h1
    · obtain ⟨tk, tv⟩ := t
      cases tk with
      | int m =>
        rcases mem_dictInsert _ h1 with h2 | h2
        · right
          rw [h2]
          exact List.mem_cons_self _ _
        · exact Or.inl h2
      | str s => exact Or.inl h1
    · exact Or.inr (List.mem_cons_of_mem _ h1)

theorem issuesOf_mem :
    ∀ (tips : List (PyKey × TipInfo)) (acc : List TipInfo) (v : TipInfo),
      v ∈ tips.foldl
        (fun acc kv =>
          match kv.1 with
          | PyKey.int _ => acc
          | PyKey.str _ => acc ++ [kv.2]) acc →
      v ∈ acc ∨ ∃ key, (key, v) ∈ tips := by
  intro tips
  induction tips with
  | nil => intro acc v h; exact Or.inl h
  | cons t ts ih =>
    intro acc v h
    rw [List.foldl_cons] at h
    rcases ih _ _ h with h1 | h1
    · obtain ⟨tk, tv⟩ := t
      cases tk with
      | int m => exact Or.inl h1
      | str s =>
        rcases List.mem_append.mp h1 with h2 | h2
        · exact Or.inl h2
        · right
          refine ⟨PyKey.str s, ?_⟩
          rcases List.mem_singleton.mp h2 with rfl
          exact List.mem_cons_self _ _
    · obtain ⟨key, hk⟩ := h1
      exact Or.inr ⟨key, List.mem_cons_of_mem _ hk⟩

/-- C7: provided every entry's lifecycle state is drawn from the fixed
pipe-free set (as the program always does —
production/draft/requested), every data row of the rendered table has
exactly as many unescaped column-delimiting pipes as the header row,
because literal pipes in title and body are escaped before the row is
assembled. -/
theorem claim_C7 :
    ∀ (tips : List (PyKey × TipInfo)) (row : List Char),
      (∀ kv ∈ tips, '|' ∉ (Prod.snd kv).state) → row ∈ catRows tips →
      unescapedPipes row = unescapedPipes headerRow := by
  intro tips row hst hrow
  have hhr : unescapedPipes headerRow = 5 := by decide
  rw [hhr]
  unfold catRows at hrow
  rcases List.mem_append.mp hrow with h1 | h1
  · obtain ⟨n, hn, rfl⟩ := List.mem_map.mp h1
    apply unescapedPipes_rowNum
    have hn' : n ∈ (numberedOf tips).map Prod.fst := by
      unfold sortedKeys at hn
      exact ((List.perm_insertionSort _ _).mem_iff).mp hn
    obtain ⟨v, hv⟩ := dictLookup_isSome_of_mem_keys _ hn'
    have hvt : lookupTip n (numberedOf tips) = v := by
      unfold lookupTip
      rw [hv]
      rfl
    rw [hvt]
    have hmem := dictLookup_mem _ hv
    rcases numberedOf_mem tips [] (n, v) hmem with h2 | h2
    · simp at h2
    · exact hst _ h2
  · obtain ⟨t, ht, rfl⟩ := List.mem_map.mp h1
    apply unescapedPipes_rowIssue
    rcases issuesOf_mem tips [] t ht with h2 | h2
    · simp at h2
    · obtain ⟨key, hk⟩ := h2
      exact hst _ hk

/-- C7, witness at a concrete input: a title containing a pipe is escaped
and the row keeps the header's column count. -/
theorem claim_C7_witness :
    (∀ kv ∈ [((PyKey.int 1),
        (⟨1, "a|b".toList, "body".toList, "production".toList⟩ : TipInfo))],
      '|' ∉ (Prod.snd kv).state) ∧
    "| 1 | a\\|b | body | production |".toList ∈ catRows
      [((PyKey.int 1), ⟨1, "a|b".toList, "body".toList, "production".toList⟩)] ∧
    unescapedPipes "| 1 | a\\|b | body | production |".toList = unescapedPipes headerRow := by
  refine ⟨by decide, by decide, ?_⟩
  exact claim_C7 [((PyKey.int 1), ⟨1, "a|b".toList, "body".toList, "production".toList⟩)]
    "| 1 | a\\|b | body | production |".toList (by decide) (by decide)

/-- C8: the rendered table consists of the header, then the numbered
rows — whose identifier list is sorted ascending and is a permutation of
the numbered entries' keys — then the issue rows in their original
insertion order, each starting with a blank identifier column. -/
theorem claim_C8 :
    ∀ tips : List (PyKey × TipInfo),
      catalogueLines tips = headerLines ++
        ((sortedKeys tips).map (fun n => rowNum n (lookupTip n (numberedOf tips))) ++
          (issuesOf tips).map rowIssue) ∧
      List.Sorted (· ≤ ·) (sortedKeys tips) ∧
      List.Perm (sortedKeys tips) ((numberedOf tips).map Prod.fst) ∧
      (∀ t : TipInfo, (rowIssue t).take 4 = "|  |".toList) := by
  intro tips
  refine ⟨rfl, ?_, ?_, fun t => rfl⟩
  · exact List.sorted_insertionSort _ _
  · exact List.perm_insertionSort _ _

theorem length_dropWhile_le {p : Char → Bool} (l : List Char) :
    (l.dropWhile p).length ≤ l.length :=
  (List.dropWhile_sublist p).length_le

theorem takeWhile_all {p : Char → Bool} : ∀ l : List Char, (∀ c ∈ l, p c = true) →
    l.takeWhile p = l := by
  intro l
  induction l with
  | nil => intro _; rfl
  | cons c cs ih =>
    intro h
    rw [List.takeWhile_cons, if_pos (h c (List.mem_cons_self _ _)),
      ih (fun d hd => h d (List.mem_cons_of_mem _ hd))]

theorem dropWhile_all {p : Char → Bool} (l : List Char) (h : ∀ c ∈ l, p c = true) :
    l.dropWhile p = [] :=
  List.dropWhile_eq_nil_iff.mpr h

theorem takeWhile_append_stop {p : Char → Bool} {x : Char} (hx : p x = false) :
    ∀ (w t : List Char), (∀ c ∈ w, p c = true) → (w ++ x :: t).takeWhile p = w := by
  intro w
  induction w with
  | nil => intro t _; simp [List.takeWhile_cons, hx]
  | cons c w' ih =>
    intro t h
    rw [List.cons_append, List.takeWhile_cons, if_pos (h c (List.mem_cons_self _ _)),
      ih t (fun d hd => h d (List.mem_cons_of_mem _ hd))]

theorem dropWhile_append_stop {p : Char → Bool} {x : Char} (hx : p x = false) :
    ∀ (w t : List Char), (∀ c ∈ w, p c = true) → (w ++ x :: t).dropWhile p = x :: t := by
  intro w
  induction w with
  | nil => intro t _; simp [List.dropWhile_cons, hx]
  | cons c w' ih =>
    intro t h
    rw [List.cons_append, List.dropWhile_cons, if_pos (h c (List.mem_cons_self _ _)),
      ih t (fun d hd => h d (List.mem_cons_of_mem _ hd))]

theorem dropWhile_head_false {p : Char → Bool} :
    ∀ (l : List Char) {c cs}, l.dropWhile p = c :: cs → p c = false := by
  intro l
  induction l with
  | nil => intro c cs h; exact absurd h (by simp)
  | cons d l' ih =>
    intro c cs h
    rw [List.dropWhile_cons] at h
    by_cases hd : p d = true
    · rw [if_pos hd] at h
      exact ih h
    · rw [if_neg hd] at h
      injection h with h1 _
      rw [← h1]
      exact Bool.eq_false_iff.mpr hd

theorem dropEndWs_eq_nil_iff {l : List Char} :
    dropEndWs l = [] ↔ ∀ c ∈ l, isWs c = true := by
  unfold dropEndWs
  constructor
  · intro h c hc
    have h' : l.reverse.dropWhile isWs = [] := by
      have := congrArg List.reverse h
      simpa using this
    exact List.dropWhile_eq_nil_iff.mp h' c (List.mem_reverse.mpr hc)
  · intro h
    rw [List.dropWhile_eq_nil_iff.mpr (fun c hc => h c (List.mem_reverse.mp hc))]
    rfl

theorem dropEndWs_append (a b : List Char) :
    dropEndWs (a ++ b) = if dropEndWs b = [] then dropEndWs a else a ++ dropEndWs b := by
  unfold dropEndWs
  rw [List.reverse_append, List.dropWhile_append]
  by_cases hb : (b.reverse.dropWhile isWs).isEmpty = true
  · rw [if_pos hb]
    have hb' : (b.reverse.dropWhile isWs).reverse = [] := by
      rw [List.isEmpty_iff.mp hb]
      rfl
    rw [if_pos hb']
  · rw [if_neg hb]
    have hb' : ¬(b.reverse.dropWhile isWs).reverse = [] := by
      intro hx
      apply hb
      rw [List.isEmpty_iff]
      have := congrArg List.reverse hx
      simpa using this
    rw [if_neg hb', List.reverse_append, List.reverse_reverse]

theorem dropEndWs_singleton (c : Char) :
    dropEndWs [c] = if isWs c = true then [] else [c] := by
  by_cases hc : isWs c = true
  · simp [dropEndWs, List.dropWhile_cons, hc]
  · simp [dropEndWs, List.dropWhile_cons, hc]

theorem dropEndWs_cons_nonws {c : Char} (hc : isWs c = false) (cs : List Char) :
    dropEndWs (c :: cs) = c :: dropEndWs cs := by
  rw [show (c :: cs : List Char) = [c] ++ cs from rfl, dropEndWs_append]
  by_cases h : dropEndWs cs = []
  · rw [if_pos h, h, dropEndWs_singleton, if_neg (by simp [hc])]
  · rw [if_neg h]
    rfl

theorem dropEndWs_all_nonws {w : List Char} (h : ∀ c ∈ w, isWs c = false) :
    dropEndWs w = w := by
  unfold dropEndWs
  have hrw : w.reverse.dropWhile isWs = w.reverse := by
    cases hw : w.reverse with
    | nil => rfl
    | cons c cs =>
      have hc : c ∈ w := List.mem_reverse.mp (hw ▸ List.mem_cons_self c cs)
      rw [List.dropWhile_cons, if_neg (by simp [h c hc])]
  rw [hrw, List.reverse_reverse]

theorem exists_nonws_of_dropEndWs_ne_nil {l : List Char} (h : dropEndWs l ≠ []) :
    ∃ c ∈ dropEndWs l, isWs c = false := by
  unfold dropEndWs at *
  cases hw : l.reverse.dropWhile isWs with
  | nil => rw [hw] at h; exact absurd rfl h
  | cons c cs =>
    refine ⟨c, ?_, dropWhile_head_false _ hw⟩
    simp

theorem pstrip_ws_cons {c : Char} (h : isWs c = true) (cs : List Char) :
    pstrip (c :: cs) = pstrip cs := by
  unfold pstrip
  rw [List.dropWhile_cons, if_pos h]

theorem pstrip_nonws_cons {c : Char} (h : isWs c = false) (cs : List Char) :
    pstrip (c :: cs) = c :: dropEndWs cs := by
  unfold pstrip
  rw [List.dropWhile_cons, if_neg (by simp [h]), dropEndWs_cons_nonws h]

theorem collapse_nonws_cons {c : Char} (h : isWs c = false) (cs : List Char) :
    collapse (c :: cs) = c :: collapse cs := by
  simp [collapse, h]

theorem collapse_nonws_append : ∀ (w : List Char), (∀ c ∈ w, isWs c = false) →
    ∀ z, collapse (w ++ z) = w ++ collapse z := by
  intro w
  induction w with
  | nil => intro _ z; rfl
  | cons c w' ih =>
    intro hw z
    rw [List.cons_append, collapse_nonws_cons (hw c (List.mem_cons_self _ _)),
      ih (fun d hd => hw d (List.mem_cons_of_mem _ hd)) z, List.cons_append]

theorem collapse_all_nonws {w : List Char} (hw : ∀ c ∈ w, isWs c = false) :
    collapse w = w := by
  have h := collapse_nonws_append w hw []
  rw [List.append_nil, show collapse [] = [] from rfl, List.append_nil] at h
  exact h

theorem collapse_ws_head : ∀ (y : List Char) (c : Char), isWs c = true →
    (∃ d ∈ c :: y, isWs d = false) →
    collapse (c :: y) = ' ' :: collapse (y.dropWhile isWs) := by
  intro y
  induction y with
  | nil =>
    intro c hc hex
    obtain ⟨d, hd, hdw⟩ := hex
    rcases List.mem_singleton.mp hd with rfl
    rw [hc] at hdw
    exact Bool.noConfusion hdw
  | cons y2 y' ih =>
    intro c hc hex
    by_cases h2 : isWs y2 = true
    · have hcol : collapse (c :: y2 :: y') = collapse (y2 :: y') := by
        simp [collapse, hc, h2]
      have hex' : ∃ d ∈ y2 :: y', isWs d = false := by
        obtain ⟨d, hd, hdw⟩ := hex
        rcases List.mem_cons.mp hd with rfl | hd'
        · rw [hc] at hdw; exact Bool.noConfusion hdw
        · exact ⟨d, hd', hdw⟩
      rw [hcol, List.dropWhile_cons, if_pos h2]
      exact ih y2 h2 hex'
    · have hcol : collapse (c :: y2 :: y') = ' ' :: collapse (y2 :: y') := by
        simp [collapse, hc, h2]
      rw [hcol, List.dropWhile_cons, if_neg (by simp [h2])]

theorem pyWordsF_stable : ∀ (f1 : Nat) (l : List Char), l.length ≤ f1 → ∀ (f2 : Nat),
    l.length ≤ f2 → pyWordsF f1 l = pyWordsF f2 l := by
  intro f1
  induction f1 with
  | zero =>
    intro l hl f2 _
    have hnil : l = [] := List.eq_nil_of_length_eq_zero (Nat.le_zero.mp hl)
    subst hnil
    cases f2 <;> rfl
  | succ f1' ih =>
    intro l hl f2 hl2
    cases l with
    | nil => cases f2 <;> rfl
    | cons c cs =>
      cases f2 with
      | zero => simp at hl2
      | succ f2' =>
        have hcs1 : cs.length ≤ f1' := Nat.le_of_succ_le_succ hl
        have hcs2 : cs.length ≤ f2' := Nat.le_of_succ_le_succ hl2
        simp only [pyWordsF]
        by_cases hc : isWs c = true
        · rw [if_pos hc, if_pos hc]
          exact ih cs hcs1 f2' hcs2
        · rw [if_neg hc, if_neg hc]
          congr 1
          exact ih _ (le_trans (length_dropWhile_le cs) hcs1) f2'
            (le_trans (length_dropWhile_le cs) hcs2)

theorem pyWords_ws_cons {c : Char} (h : isWs c = true) (cs : List Char) :
    pyWords (c :: cs) = pyWords cs := by
  unfold pyWords
  rw [show (c :: cs).length = cs.length + 1 from rfl]
  simp only [pyWordsF]
  rw [if_pos h]

theorem pyWords_nonws_cons {c : Char} (h : isWs c = false) (cs : List Char) :
    pyWords (c :: cs) = (c :: cs.takeWhile (fun d => !isWs d)) ::
      pyWords (cs.dropWhile (fun d => !isWs d)) := by
  unfold pyWords
  rw [show (c :: cs).length = cs.length + 1 from rfl]
  simp only [pyWordsF]
  rw [if_neg (by simp [h])]
  congr 1
  exact pyWordsF_stable _ _ (length_dropWhile_le cs) _ (le_refl _)

theorem pyWords_all_ws : ∀ l : List Char, (∀ c ∈ l, isWs c = true) → pyWords l = [] := by
  intro l
  induction l with
  | nil => intro _; rfl
  | cons c cs ih =>
    intro h
    rw [pyWords_ws_cons (h c (List.mem_cons_self _ _)),
      ih (fun d hd => h d (List.mem_cons_of_mem _ hd))]

theorem pyWords_eq_nil_iff : ∀ l : List Char, (pyWords l = [] ↔ ∀ c ∈ l, isWs c = true) := by
  intro l
  induction l with
  | nil => simp [pyWords, pyWordsF]
  | cons c cs ih =>
    by_cases hc : isWs c = true
    · rw [pyWords_ws_cons hc, ih]
      constructor
      · intro h d hd
        rcases List.mem_cons.mp hd with rfl | hd'
        · exact hc
        · exact h d hd'
      · intro h d hd
        exact h d (List.mem_cons_of_mem _ hd)
    · rw [pyWords_nonws_cons (Bool.eq_false_iff.mpr hc)]
      constructor
      · intro h
        exact List.noConfusion h
      · intro h
        exact absurd (h c (List.mem_cons_self _ _)) hc

theorem pyWords_props : ∀ (n : Nat) (l : List Char), l.length ≤ n →
    ∀ w ∈ pyWords l, w ≠ [] ∧ ∀ c ∈ w, isWs c = false := by
  intro n
  induction n with
  | zero =>
    intro l hl w hw
    have hnil : l = [] := List.eq_nil_of_length_eq_zero (Nat.le_zero.mp hl)
    subst hnil
    simp [pyWords, pyWordsF] at hw
  | succ n' ih =>
    intro l hl w hw
    cases l with
    | nil => simp [pyWords, pyWordsF] at hw
    | cons c cs =>
      have hcs : cs.length ≤ n' := Nat.le_of_succ_le_succ hl
      by_cases hc : isWs c = true
      · rw [pyWords_ws_cons hc] at hw
        exact ih cs hcs w hw
      · have hc' : isWs c = false := Bool.eq_false_iff.mpr hc
        rw [pyWords_nonws_cons hc'] at hw
        rcases List.mem_cons.mp hw with rfl | hw'
        · refine ⟨List.cons_ne_nil _ _, ?_⟩
          intro d hd
          rcases List.mem_cons.mp hd with rfl | hd'
          · exact hc'
          · have := List.mem_takeWhile_imp hd'
            simpa using this
        · exact ih _ (le_trans (length_dropWhile_le cs) hcs) w hw'

theorem pyWords_word_append {w : List Char} (hne : w ≠ []) (hw : ∀ c ∈ w, isWs c = false) :
    ∀ t, pyWords (w ++ ' ' :: t) = w :: pyWords t := by
  intro t
  cases w with
  | nil => exact absurd rfl hne
  | cons d w' =>
    rw [List.cons_append, pyWords_nonws_cons (hw d (List.mem_cons_self _ _))]
    rw [takeWhile_append_stop (by decide) w' t
      (fun c hc => by simp [hw c (List.mem_cons_of_mem _ hc)])]
    rw [dropWhile_append_stop (by decide) w' t
      (fun c hc => by simp [hw c (List.mem_cons_of_mem _ hc)])]
    rw [pyWords_ws_cons (by decide)]

theorem pyWords_joinSp : ∀ WS : List (List Char),
    (∀ w ∈ WS, w ≠ [] ∧ ∀ c ∈ w, isWs c = false) → pyWords (joinSp WS) = WS := by
  intro WS
  induction WS with
  | nil => intro _; rfl
  | cons w ws ih =>
    intro h
    obtain ⟨hne, hnw⟩ := h w (List.mem_cons_self _ _)
    cases ws with
    | nil =>
      cases w with
      | nil => exact absurd rfl hne
      | cons d w' =>
        rw [show joinSp [d :: w'] = d :: w' from rfl,
          pyWords_nonws_cons (hnw d (List.mem_cons_self _ _)),
          takeWhile_all w' (fun c hc => by simp [hnw c (List.mem_cons_of_mem _ hc)]),
          dropWhile_all w' (fun c hc => by simp [hnw c (List.mem_cons_of_mem _ hc)])]
        rfl
    | cons v ws' =>
      rw [show joinSp (w :: v :: ws') = w ++ ' ' :: joinSp (v :: ws') from rfl,
        pyWords_word_append hne hnw, ih (fun u hu => h u (List.mem_cons_of_mem _ hu))]

theorem dropWhile_dropEndWs_comm : ∀ r : List Char,
    (dropEndWs r).dropWhile isWs = dropEndWs (r.dropWhile isWs) := by
  intro r
  induction r with
  | nil => rfl
  | cons c r' ih =>
    by_cases hc : isWs c = true
    · rw [show (c :: r' : List Char) = [c] ++ r' from rfl, dropEndWs_append]
      by_cases hr : dropEndWs r' = []
      · rw [if_pos hr, dropEndWs_singleton, if_pos hc,
          show ([c] ++ r' : List Char) = c :: r' from rfl, List.dropWhile_cons, if_pos hc,
          dropWhile_all r' (dropEndWs_eq_nil_iff.mp hr)]
        rfl
      · rw [if_neg hr,
          show ([c] ++ dropEndWs r' : List Char) = c :: dropEndWs r' from rfl,
          List.dropWhile_cons, if_pos hc, ih,
          show ([c] ++ r' : List Char) = c :: r' from rfl,
          List.dropWhile_cons, if_pos hc]
    · have hc' : isWs c = false := Bool.eq_false_iff.mpr hc
      have h1 : dropEndWs (c :: r') = c :: dropEndWs r' := dropEndWs_cons_nonws hc' r'
      have h2 : (c :: r').dropWhile isWs = c :: r' := by
        rw [List.dropWhile_cons, if_neg (by simp [hc'])]
      rw [h1, h2, h1, List.dropWhile_cons, if_neg (by simp [hc'])]

theorem joinSp_pyWords : ∀ (n : Nat) (l : List Char), l.length ≤ n →
    joinSp (pyWords l) = collapse (pstrip l) := by
  intro n
  induction n with
  | zero =>
    intro l hl
    have hnil : l = [] := List.eq_nil_of_length_eq_zero (Nat.le_zero.mp hl)
    subst hnil
    rfl
  | succ n' ih =>
    intro l hl
    cases l with
    | nil => rfl
    | cons c cs =>
      have hcs : cs.length ≤ n' := Nat.le_of_succ_le_succ hl
      by_cases hc : isWs c = true
      · rw [pyWords_ws_cons hc, pstrip_ws_cons hc]
        exact ih cs hcs
      · have hc' : isWs c = false := Bool.eq_false_iff.mpr hc
        rw [pyWords_nonws_cons hc', pstrip_nonws_cons hc']
        set w := cs.takeWhile (fun d => !isWs d) with hw
        set r := cs.dropWhile (fun d => !isWs d) with hr
        have hcs_eq : w ++ r = cs := List.takeWhile_append_dropWhile _ _
        have hwnw : ∀ d ∈ w, isWs d = false := by
          intro d hd
          have := List.mem_takeWhile_imp (hw ▸ hd)
          simpa using this
        have hrlen : r.length ≤ cs.length := by
          rw [hr]
          exact length_dropWhile_le cs
        rw [collapse_nonws_cons hc', ← hcs_eq, dropEndWs_append]
        by_cases hre : dropEndWs r = []
        · rw [if_pos hre, pyWords_all_ws r (dropEndWs_eq_nil_iff.mp hre),
            dropEndWs_all_nonws hwnw, show joinSp [c :: w] = c :: w from rfl,
            collapse_all_nonws hwnw]
        · rw [if_neg hre]
          have hrne : pyWords r ≠ [] := by
            rw [ne_eq, pyWords_eq_nil_iff]
            intro hall
            exact hre (dropEndWs_eq_nil_iff.mpr hall)
          have hjs : joinSp ((c :: w) :: pyWords r) =
              (c :: w) ++ ' ' :: joinSp (pyWords r) := by
            cases hpw : pyWords r with
            | nil => exact absurd hpw hrne
            | cons pw pws => rfl
          rw [hjs, ih r (le_trans hrlen hcs), collapse_nonws_append w hwnw]
          have hkey : collapse (dropEndWs r) = ' ' :: collapse (pstrip r) := by
            obtain ⟨rc, r2, hrr⟩ : ∃ rc r2, r = rc :: r2 := by
              cases hrr : r with
              | nil =>
                rw [hrr] at hre
                exact absurd rfl hre
              | cons rc r2 => exact ⟨rc, r2, rfl⟩
            have hrcws : isWs rc = true := by
              have hh := dropWhile_head_false _ (hr.symm.trans hrr)
              simpa using hh
            rw [hrr] at hre
            rw [hrr]
            have hder : dropEndWs (rc :: r2) = rc :: dropEndWs r2 := by
              rw [show (rc :: r2 : List Char) = [rc] ++ r2 from rfl, dropEndWs_append]
              by_cases h2 : dropEndWs r2 = []
              · exfalso
                apply hre
                rw [show (rc :: r2 : List Char) = [rc] ++ r2 from rfl, dropEndWs_append,
                  if_pos h2, dropEndWs_singleton, if_pos hrcws]
              · rw [if_neg h2]
                rfl
            rw [hder]
            have hex : ∃ d ∈ rc :: dropEndWs r2, isWs d = false := by
              obtain ⟨d, hd, hdw⟩ := exists_nonws_of_dropEndWs_ne_nil hre
              rw [hder] at hd
              exact ⟨d, hd, hdw⟩
            rw [collapse_ws_head (dropEndWs r2) rc hrcws hex,
              dropWhile_dropEndWs_comm r2, pstrip_ws_cons hrcws]
            rfl
          rw [hkey]
          simp

theorem pyWords_collapse_pstrip (l : List Char) :
    pyWords (collapse (pstrip l)) = pyWords l := by
  have hL := joinSp_pyWords l.length l (le_refl _)
  rw [← hL]
  exact pyWords_joinSp (pyWords l) (fun w hw => pyWords_props l.length l (le_refl _) w hw)

/-- C3, counterexample against reading the claim of the final tip
summary: the cleaned text of this input has the three words `a`, the
backticked `b`, and `c` — 50 or fewer, so the claim asserts all words
are preserved with nothing appended — yet the final summary produced by
`extract_tip_info` is `a b c`: `filter_media_tags` runs after the
truncation step and its inline-code pass rewrites the backticked word,
which therefore does not occur among the summary's words. -/
theorem claim_C3_counterexample :
    pyWords (cleanedText "<p>a \x60b\x60 c</p>".toList) =
      ["a".toList, "\x60b\x60".toList, "c".toList] ∧
    (pyWords (cleanedText "<p>a \x60b\x60 c</p>".toList)).length ≤ 50 ∧
    tipBody "<p>a \x60b\x60 c</p>".toList = "a b c".toList ∧
    "\x60b\x60".toList ∉ pyWords (tipBody "<p>a \x60b\x60 c</p>".toList) := by
  refine ⟨rfl, by decide, rfl, by decide⟩

/-- C3, amended: the 50-word truncation behaves as specified at its two
truncation sites, but on the tip path that is not the final summary.
For the tip-file path, `extract_html_body`'s output: when the cleaned
text has more than 50 words the result is exactly the first 50 words
joined by single spaces followed by the ellipsis marker, and otherwise it
is all the words joined by single spaces, with no ellipsis appended.  For
the issue path (`get_github_issues`), where truncation is the last step,
the same statement holds of the final body with the words of the
filtered, whitespace-normalised issue body.  On the tip path, however,
`extract_tip_info` applies `filter_media_tags` after the truncation, so
the final summary may differ from the truncated text — see the
counterexample, where a backticked word among the input's words is
rewritten after truncation. -/
theorem claim_C3 :
    ∀ (content raw : List Char),
      extractHtmlBody content =
        (if 50 < (pyWords (cleanedText content)).length then
          joinSp ((pyWords (cleanedText content)).take 50) ++ ell
        else joinSp (pyWords (cleanedText content))) ∧
      issueBody raw =
        (if 50 < (pyWords (filterMediaTags (collapse (pstrip raw)))).length then
          joinSp ((pyWords (filterMediaTags (collapse (pstrip raw)))).take 50) ++ ell
        else filterMediaTags (collapse (pstrip raw))) := by
  intro content raw
  constructor
  · unfold extractHtmlBody truncate50
    by_cases h : 50 < (pyWords (cleanedText content)).length
    · rw [if_pos h, if_pos h]
    · rw [if_neg h, if_neg h]
      have hM : pyWords (cleanedText content) =
          pyWords (stripTags (audioSub (videoSub (imgSub (scriptStyleSub content))))) := by
        unfold cleanedText
        exact pyWords_collapse_pstrip _
      rw [hM]
      unfold cleanedText
      exact (joinSp_pyWords _ _ (le_refl _)).symm
  · unfold issueBody truncate50
    by_cases h : 50 < (pyWords (filterMediaTags (collapse (pstrip raw)))).length
    · rw [if_pos h]
    · rw [if_neg h]

theorem lowerC_eq_lt {c : Char} (h : lowerC c = '<') : c = '<' := by
  unfold lowerC at h
  split at h <;> first | assumption | exact absurd h (by decide)

theorem lowerC_eq_gt {c : Char} (h : lowerC c = '>') : c = '>' := by
  unfold lowerC at h
  split at h <;> first | assumption | exact absurd h (by decide)

theorem startsWithCI_cons_iff {p : Char} {ps l : List Char} :
    startsWithCI (p :: ps) l = true ↔
      ∃ c cs, l = c :: cs ∧ lowerC c = p ∧ startsWithCI ps cs = true := by
  cases l with
  | nil => simp [startsWithCI]
  | cons c cs =>
    simp only [startsWithCI, Bool.and_eq_true, decide_eq_true_eq]
    constructor
    · rintro ⟨h1, h2⟩
      exact ⟨c, cs, rfl, h1, h2⟩
    · rintro ⟨c', cs', hEq, h1, h2⟩
      cases hEq
      exact ⟨h1, h2⟩

theorem startsWithCI_lt_head {pat l : List Char} (hpat : ∃ ps, pat = '<' :: ps)
    (h : startsWithCI pat l = true) : ∃ cs, l = '<' :: cs := by
  obtain ⟨ps, rfl⟩ := hpat
  rw [startsWithCI_cons_iff] at h
  obtain ⟨c, cs, rfl, hlow, _⟩ := h
  exact ⟨cs, by rw [lowerC_eq_lt hlow]⟩

theorem dropWhile_idem {p : Char → Bool} (l : List Char) :
    (l.dropWhile p).dropWhile p = l.dropWhile p := by
  cases h : l.dropWhile p with
  | nil => rfl
  | cons c cs => rw [List.dropWhile_cons, if_neg (by simp [dropWhile_head_false _ h])]

theorem dropEndWs_idem (l : List Char) : dropEndWs (dropEndWs l) = dropEndWs l := by
  unfold dropEndWs
  rw [List.reverse_reverse, dropWhile_idem]

theorem pstrip_idem (m : List Char) : pstrip (pstrip m) = pstrip m := by
  unfold pstrip
  rw [dropWhile_dropEndWs_comm, dropWhile_idem, dropEndWs_idem]

theorem dropWhile_append_stop2 {p : Char → Bool} {x : Char} (hx : p x = false)
    (a t : List Char) : (a ++ x :: t).dropWhile p = a.dropWhile p ++ x :: t := by
  rw [List.dropWhile_append]
  by_cases h : (a.dropWhile p).isEmpty = true
  · rw [if_pos h, List.dropWhile_cons, if_neg (by simp [hx]), List.isEmpty_iff.mp h]
    rfl
  · rw [if_neg h]

theorem splitFirstL_h1close (post : List Char) : ∀ (m : List Char), '<' ∉ m →
    splitFirstL "</h1>".toList (m ++ ('<' :: '/' :: 'h' :: '1' :: '>' :: post)) =
      some (m, post) := by
  intro m
  induction m with
  | nil =>
    intro _
    show splitFirstL "</h1>".toList ('<' :: '/' :: 'h' :: '1' :: '>' :: post) = some ([], post)
    simp only [splitFirstL]
    rw [if_pos (by rfl)]
    rfl
  | cons c m' ih =>
    intro hc
    have hcne : c ≠ '<' := fun h => hc (h ▸ List.mem_cons_self _ _)
    have hns : ¬ startsWithL "</h1>".toList
        (c :: (m' ++ ('<' :: '/' :: 'h' :: '1' :: '>' :: post))) = true := by
      intro hsw
      rw [show ("</h1>".toList : List Char) = '<' :: "/h1>".toList from rfl,
        startsWithL_cons_iff] at hsw
      obtain ⟨cs, hEq, _⟩ := hsw
      injection hEq with h1 _
      exact hcne h1
    rw [List.cons_append]
    simp only [splitFirstL]
    rw [if_neg hns, ih (fun h => hc (List.mem_cons_of_mem _ h))]

theorem tryH1_at_h1 (mid post : List Char) (hmid : '<' ∉ mid) :
    tryH1 ('<' :: 'h' :: '1' :: '>' :: (mid ++ ('<' :: '/' :: 'h' :: '1' :: '>' :: post))) =
      some (pstrip mid) := by
  unfold tryH1
  rw [if_pos (by rfl)]
  rw [show ('<' :: 'h' :: '1' :: '>' ::
      (mid ++ ('<' :: '/' :: 'h' :: '1' :: '>' :: post))).drop 3 =
      '>' :: (mid ++ ('<' :: '/' :: 'h' :: '1' :: '>' :: post)) from rfl]
  rw [show splitFirstGt ('>' :: (mid ++ ('<' :: '/' :: 'h' :: '1' :: '>' :: post))) =
      some ([], mid ++ ('<' :: '/' :: 'h' :: '1' :: '>' :: post)) from rfl]
  have hdw : (mid ++ ('<' :: '/' :: 'h' :: '1' :: '>' :: post)).dropWhile isWs =
      mid.dropWhile isWs ++ ('<' :: '/' :: 'h' :: '1' :: '>' :: post) :=
    dropWhile_append_stop2 (by decide) mid _
  have hkey : splitFirstL "</h1>".toList
      ((mid ++ ('<' :: '/' :: 'h' :: '1' :: '>' :: post)).dropWhile isWs) =
      some (mid.dropWhile isWs, post) := by
    rw [hdw]
    exact splitFirstL_h1close post (mid.dropWhile isWs)
      (fun h => hmid ((List.dropWhile_sublist _).subset h))
  simp only [hkey]
  rfl

theorem h1SearchF_append_skip : ∀ (pre rest : List Char), '<' ∉ pre →
    h1SearchF (pre.length + (rest.length + 1)) (pre ++ rest) =
      h1SearchF (rest.length + 1) rest := by
  intro pre
  induction pre with
  | nil => intro rest _; simp
  | cons c pre' ih =>
    intro rest hc
    have hcne : c ≠ '<' := fun h => hc (h ▸ List.mem_cons_self _ _)
    have htry : tryH1 (c :: (pre' ++ rest)) = none := by
      unfold tryH1
      rw [if_neg ?hng]
      case hng =>
        intro hsw
        rw [show ("<h1".toList : List Char) = '<' :: "h1".toList from rfl,
          startsWithL_cons_iff] at hsw
        obtain ⟨cs, hEq, _⟩ := hsw
        injection hEq with h1 _
        exact hcne h1
    have harith : (c :: pre').length + (rest.length + 1) =
        (pre'.length + (rest.length + 1)) + 1 := by
      simp [List.length_cons]
      omega
    rw [harith, show ((c :: pre') ++ rest : List Char) = c :: (pre' ++ rest) from rfl]
    simp only [h1SearchF, htry]
    exact ih rest (fun h => hc (List.mem_cons_of_mem _ h))

/-- C5, counterexample: on `<h12>Fa<b>ke</b></h1><h1>Real</h1>` the only
genuine `<h1>` element is `<h1>Real</h1>` with text `Real`, yet the
extracted title is `Fa<b>ke</b>`: the search pattern `<h1[^>]*>` also
matches the `<h12>` pseudo-tag, and the captured title keeps interior
markup verbatim.  So the title is neither the heading's text nor its
whitespace-normalised form.  And because the search carries no
`re.IGNORECASE`, the upper-case heading `<H1>Hello</H1>` — an `<h1>`
element in HTML terms — is not matched at all: the title falls back to
the placeholder instead of `Hello`. -/
theorem claim_C5_counterexample :
    titleOf "<h12>Fa<b>ke</b></h1><h1>Real</h1>".toList = "Fa<b>ke</b>".toList ∧
    "Fa<b>ke</b>".toList ≠ "Real".toList ∧
    titleOf "<h12>Fa<b>ke</b></h1><h1>Real</h1>".toList ≠ collapse (pstrip "Real".toList) ∧
    titleOf "<H1>Hello</H1>".toList = noTitle := by
  exact ⟨by decide, by decide, by decide, by decide⟩

/-- C5, amended: the title comes from the first position where the
pattern `<h1` + non-`>`s + `>` matches case-sensitively with a later
`</h1>` (so tags such as `<h12>` are also accepted, the captured text may
retain interior markup, and upper-case variants like `<H1>` are not
matched).  When the first `<` of the input opens a well-formed lowercase
`<h1>` heading whose text contains no `<`, this yields exactly the
claim's statement: the title is the heading's text with leading/trailing
whitespace removed and internal whitespace runs collapsed.  When the
search finds no match, the title is the fixed placeholder
`No title found`. -/
theorem claim_C5 :
    (∀ (pre mid post : List Char), '<' ∉ pre → '<' ∉ mid →
      titleOf (pre ++ ("<h1>".toList ++ (mid ++ ("</h1>".toList ++ post)))) =
        collapse (pstrip mid)) ∧
    (∀ content, h1Search content = none → titleOf content = noTitle) := by
  constructor
  · intro pre mid post hpre hmid
    have hrest : ("<h1>".toList ++ (mid ++ ("</h1>".toList ++ post)) : List Char) =
        '<' :: 'h' :: '1' :: '>' :: (mid ++ ('<' :: '/' :: 'h' :: '1' :: '>' :: post)) := rfl
    have hsearch : h1Search (pre ++ ("<h1>".toList ++ (mid ++ ("</h1>".toList ++ post)))) =
        some (pstrip mid) := by
      unfold h1Search
      have hlen : (pre ++ ("<h1>".toList ++ (mid ++ ("</h1>".toList ++ post)))).length + 1 =
          pre.length +
            (("<h1>".toList ++ (mid ++ ("</h1>".toList ++ post))).length + 1) := by
        simp [List.length_append]
        omega
      rw [hlen, h1SearchF_append_skip pre _ hpre]
      rw [hrest]
      have hfuel : ∃ f, ('<' :: 'h' :: '1' :: '>' ::
          (mid ++ ('<' :: '/' :: 'h' :: '1' :: '>' :: post))).length + 1 = f + 1 :=
        ⟨_, rfl⟩
      obtain ⟨f, hf⟩ := hfuel
      rw [hf]
      simp only [h1SearchF, tryH1_at_h1 mid post hmid]
    unfold titleOf
    rw [hsearch]
    show collapse (pstrip (pstrip mid)) = collapse (pstrip mid)
    rw [pstrip_idem]
  · intro content h
    unfold titleOf
    rw [h]

/-- C5, witness for the amended statement at a concrete input. -/
theorem claim_C5_witness :
    ('<' ∉ "x ".toList) ∧ ('<' ∉ " My  Title ".toList) ∧
    titleOf ("x ".toList ++ ("<h1>".toList ++ (" My  Title ".toList ++
        ("</h1>".toList ++ " tail".toList)))) =
      collapse (pstrip " My  Title ".toList) := by
  refine ⟨by decide, by decide, ?_⟩
  exact claim_C5.1 "x ".toList " My  Title ".toList " tail".toList (by decide) (by decide)

theorem OKS_nil : OKS [] := by
  intro a b h
  exact absurd h (by simp)

theorem OKS_cons_of {c : Char} {l : List Char} (hl : OKS l)
    (hc : c = '<' → l = [] ∨ (∃ l2, l = '>' :: l2) ∨ '>' ∉ l) : OKS (c :: l) := by
  intro a b h
  cases a with
  | nil =>
    injection h with h1 h2
    subst h2
    exact hc h1
  | cons a0 a' =>
    injection h with h1 h2
    exact hl a' b h2

theorem OKS_cons_elim {c : Char} {l : List Char} (h : OKS (c :: l)) :
    OKS l ∧ (c = '<' → l = [] ∨ (∃ l2, l = '>' :: l2) ∨ '>' ∉ l) := by
  constructor
  · intro a b hab
    exact h (c :: a) b (by rw [hab]; rfl)
  · intro hc
    exact h [] l (by rw [hc]; rfl)

theorem OKS_cons_not_lt {c : Char} {l : List Char} (hc : c ≠ '<') (hl : OKS l) :
    OKS (c :: l) :=
  OKS_cons_of hl (fun h => absurd h hc)

theorem OKS_append_right {a b : List Char} (h : OKS (a ++ b)) : OKS b := by
  intro x y hxy
  exact h (a ++ x) y (by rw [hxy]; simp)

theorem OKS_append_left {a b : List Char} (h : OKS (a ++ b)) : OKS a := by
  intro x y hxy
  rcases h x (y ++ b) (by rw [hxy]; simp) with h1 | ⟨y2, h2⟩ | h3
  · exact Or.inl (List.append_eq_nil.mp h1).1
  · cases y with
    | nil => exact Or.inl rfl
    | cons y0 y' =>
      injection h2 with h21 h22
      exact Or.inr (Or.inl ⟨y', by rw [h21]⟩)
  · exact Or.inr (Or.inr (fun hy => h3 (List.mem_append.mpr (Or.inl hy))))

theorem OKS_of_no_lt {b : List Char} (h : '<' ∉ b) : OKS b := by
  intro x y hxy
  exact absurd (by rw [hxy]; simp : '<' ∈ b) h

theorem OKS_append_left_of_no_lt {r S : List Char} (hr : '<' ∉ r) (hS : OKS S) :
    OKS (r ++ S) := by
  induction r with
  | nil => exact hS
  | cons c r' ih =>
    have hc : c ≠ '<' := fun h => hr (h ▸ List.mem_cons_self _ _)
    exact OKS_cons_not_lt hc (ih (fun h => hr (List.mem_cons_of_mem _ h)))

theorem OKS_append_no_angles {a b : List Char} (ha : OKS a) (hlt : '<' ∉ b)
    (hgt : '>' ∉ b) : OKS (a ++ b) := by
  induction a with
  | nil => exact OKS_of_no_lt hlt
  | cons c a' ih =>
    obtain ⟨ha', hcond⟩ := OKS_cons_elim ha
    apply OKS_cons_of (ih ha')
    intro hc
    rcases hcond hc with h1 | ⟨l2, h2⟩ | h3
    · subst h1
      exact Or.inr (Or.inr (by simpa using hgt))
    · subst h2
      exact Or.inr (Or.inl ⟨l2 ++ b, rfl⟩)
    · refine Or.inr (Or.inr ?_)
      intro hmem
      rcases List.mem_append.mp hmem with h4 | h4
      · exact h3 h4
      · exact hgt h4

theorem OKS_isPrefix {p q : List Char} (h : p <+: q) (hq : OKS q) : OKS p := by
  obtain ⟨t, rfl⟩ := h
  exact OKS_append_left hq

theorem scanSub_nil (tm : List Char → Option (List Char × List Char)) (fuel : Nat) :
    scanSub tm fuel [] = [] := by
  cases fuel <;> rfl

theorem scanSub_mem {tm : List Char → Option (List Char × List Char)} {R : List Char}
    (H : ∀ s r rest, tm s = some (r, rest) →
      (∃ pre, s = pre ++ rest) ∧ ∀ c ∈ r, c ∈ s ∨ c ∈ R) :
    ∀ (fuel : Nat) (l : List Char) (c : Char), c ∈ scanSub tm fuel l → c ∈ l ∨ c ∈ R := by
  intro fuel
  induction fuel with
  | zero => intro l c h; exact Or.inl h
  | succ f ih =>
    intro l c h
    cases l with
    | nil => rw [scanSub_nil] at h; exact absurd h (by simp)
    | cons x xs =>
      cases htm : tm (x :: xs) with
      | some pr =>
        obtain ⟨r, rest⟩ := pr
        simp only [scanSub, htm] at h
        rcases List.mem_append.mp h with h1 | h1
        · rcases (H _ _ _ htm).2 c h1 with h2 | h2
          · exact Or.inl h2
          · exact Or.inr h2
        · rcases ih rest c h1 with h2 | h2
          · obtain ⟨pre, hpre⟩ := (H _ _ _ htm).1
            exact Or.inl (by rw [hpre]; exact List.mem_append.mpr (Or.inr h2))
          · exact Or.inr h2
      | none =>
        simp only [scanSub, htm] at h
        rcases List.mem_cons.mp h with rfl | h1
        · exact Or.inl (List.mem_cons_self _ _)
        · rcases ih xs c h1 with h2 | h2
          · exact Or.inl (List.mem_cons_of_mem _ h2)
          · exact Or.inr h2

theorem scanSub_id {tm : List Char → Option (List Char × List Char)} :
    ∀ (fuel : Nat) (l : List Char),
      (∀ s, (∃ t, t ++ s = l) → tm s = none) → scanSub tm fuel l = l := by
  intro fuel
  induction fuel with
  | zero => intro l _; rfl
  | succ f ih =>
    intro l hnone
    cases l with
    | nil => rfl
    | cons x xs =>
      have h0 : tm (x :: xs) = none := hnone _ ⟨[], rfl⟩
      simp only [scanSub, h0]
      rw [ih xs (fun s hs => hnone s (by obtain ⟨t, ht⟩ := hs; exact ⟨x :: t, by rw [← ht]; rfl⟩))]

theorem scanSub_OKS {tm : List Char → Option (List Char × List Char)} {R : List Char}
    (Hsome : ∀ s r rest, tm s = some (r, rest) →
      (∃ pre, s = pre ++ rest) ∧ '<' ∉ r ∧ (∀ c ∈ r, c ∈ s ∨ c ∈ R))
    (hRgt : '>' ∉ R)
    (Hgt : ∀ x, tm ('>' :: x) = none) :
    ∀ (fuel : Nat) (l : List Char), OKS l → OKS (scanSub tm fuel l) := by
  intro fuel
  induction fuel with
  | zero => intro l h; exact h
  | succ f ih =>
    intro l hl
    cases l with
    | nil => rw [scanSub_nil]; exact OKS_nil
    | cons x xs =>
      have hxs : OKS xs := (OKS_cons_elim hl).1
      cases htm : tm (x :: xs) with
      | some pr =>
        obtain ⟨r, rest⟩ := pr
        simp only [scanSub, htm]
        obtain ⟨⟨pre, hpre⟩, hltr, _⟩ := Hsome _ _ _ htm
        have hOrest : OKS rest := OKS_append_right (hpre ▸ hl)
        exact OKS_append_left_of_no_lt hltr (ih rest hOrest)
      | none =>
        simp only [scanSub, htm]
        by_cases hx : x = '<'
        · subst hx
          apply OKS_cons_of (ih xs hxs)
          intro _
          rcases (OKS_cons_elim hl).2 rfl with h1 | ⟨l2, h2⟩ | h3
          · subst h1
            exact Or.inl (scanSub_nil tm f)
          · subst h2
            cases f with
            | zero => exact Or.inr (Or.inl ⟨l2, rfl⟩)
            | succ g =>
              refine Or.inr (Or.inl ⟨scanSub tm g l2, ?_⟩)
              simp only [scanSub, Hgt]
          · refine Or.inr (Or.inr ?_)
            intro hmem
            rcases scanSub_mem (fun s r rest hsr => ⟨(Hsome s r rest hsr).1,
              (Hsome s r rest hsr).2.2⟩) f xs '>' hmem with h4 | h4
            · exact h3 h4
            · exact hRgt h4
        · exact OKS_cons_not_lt hx (ih xs hxs)

theorem splitFirstCh_some {x : Char} : ∀ {l a b : List Char},
    splitFirstCh x l = some (a, b) → l = a ++ x :: b ∧ x ∉ a := by
  intro l
  induction l with
  | nil => intro a b h; exact Option.noConfusion h
  | cons c cs ih =>
    intro a b h
    rw [splitFirstCh] at h
    by_cases hc : c = x
    · rw [if_pos hc] at h
      injection h with h1
      injection h1 with ha hb
      subst ha
      subst hb
      exact ⟨by rw [hc]; rfl, by simp⟩
    · rw [if_neg hc] at h
      cases hsp : splitFirstCh x cs with
      | none => rw [hsp] at h; exact Option.noConfusion h
      | some p =>
        obtain ⟨a', b'⟩ := p
        rw [hsp] at h
        injection h with h1
        injection h1 with ha hb
        subst ha
        subst hb
        obtain ⟨ih1, ih2⟩ := ih hsp
        refine ⟨by rw [List.cons_append, ← ih1], ?_⟩
        intro hx
        rcases List.mem_cons.mp hx with h2 | h2
        · exact hc h2.symm
        · exact ih2 h2

theorem splitFirstCh_none {x : Char} : ∀ {l : List Char},
    splitFirstCh x l = none → x ∉ l := by
  intro l
  induction l with
  | nil => intro _ h; exact absurd h (by simp)
  | cons c cs ih =>
    intro h hx
    rw [splitFirstCh] at h
    by_cases hc : c = x
    · rw [if_pos hc] at h
      exact Option.noConfusion h
    · rw [if_neg hc] at h
      cases hsp : splitFirstCh x cs with
      | none =>
        rcases List.mem_cons.mp hx with h2 | h2
        · exact hc h2.symm
        · exact ih hsp h2
      | some p => rw [hsp] at h; exact Option.noConfusion h

theorem splitFirstCh_none_of_not_mem {x : Char} : ∀ {l : List Char},
    x ∉ l → splitFirstCh x l = none := by
  intro l
  induction l with
  | nil => intro _; rfl
  | cons c cs ih =>
    intro h
    rw [splitFirstCh,
      if_neg (fun hc => h (by rw [hc]; exact List.mem_cons_self _ _)),
      ih (fun hx => h (List.mem_cons_of_mem _ hx))]

theorem tmTag_some {s r rest : List Char} (h : tmTag s = some (r, rest)) :
    ∃ a, s = '<' :: a ++ '>' :: rest ∧ a ≠ [] ∧ '>' ∉ a ∧ r = [' '] := by
  cases s with
  | nil => exact Option.noConfusion h
  | cons c cs =>
    have h' : (if c = '<' then
        (match splitFirstGt cs with
          | none => none
          | some (a, rest) => if a = [] then none else some (([' '] : List Char), rest))
      else none) = some (r, rest) := h
    by_cases hc : c = '<'
    · rw [if_pos hc] at h'
      cases hsp : splitFirstGt cs with
      | none => rw [hsp] at h'; exact Option.noConfusion h'
      | some p =>
        obtain ⟨a, b⟩ := p
        rw [hsp] at h'
        have h2' : (if a = [] then none else some (([' '] : List Char), b)) =
            some (r, rest) := h'
        by_cases ha : a = []
        · rw [if_pos ha] at h2'
          exact Option.noConfusion h2'
        · rw [if_neg ha] at h2'
          injection h2' with h1
          injection h1 with hr hb
          subst hr
          subst hb
          obtain ⟨h2, h3⟩ := splitFirstCh_some hsp
          exact ⟨a, by rw [hc, List.cons_append, ← h2], ha, h3, rfl⟩
    · rw [if_neg hc] at h'
      exact Option.noConfusion h'

theorem tmTag_mem_hyp : ∀ (s r rest : List Char), tmTag s = some (r, rest) →
    (∃ pre, s = pre ++ rest) ∧ ∀ c ∈ r, c ∈ s ∨ c ∈ [' '] := by
  intro s r rest h
  obtain ⟨a, hs, _, _, hr⟩ := tmTag_some h
  constructor
  · exact ⟨'<' :: a ++ ['>'], by rw [hs]; simp⟩
  · intro c hc
    subst hr
    rcases List.mem_singleton.mp hc with rfl
    exact Or.inr (by simp)

theorem stripTags_scan_OKS : ∀ (fuel : Nat) (l : List Char), l.length ≤ fuel →
    OKS (scanSub tmTag fuel l) := by
  intro fuel
  induction fuel with
  | zero =>
    intro l hl
    have hnil : l = [] := List.eq_nil_of_length_eq_zero (Nat.le_zero.mp hl)
    subst hnil
    exact OKS_nil
  | succ f ih =>
    intro l hl
    cases l with
    | nil => rw [scanSub_nil]; exact OKS_nil
    | cons x xs =>
      have hxs : xs.length ≤ f := Nat.le_of_succ_le_succ hl
      cases htm : tmTag (x :: xs) with
      | some pr =>
        obtain ⟨r, rest⟩ := pr
        simp only [scanSub, htm]
        obtain ⟨a, hs, hane, hgta, hr⟩ := tmTag_some htm
        subst hr
        have hrlen : rest.length ≤ f := by
          injection hs with h1 h2
          have hlen := congrArg List.length h2
          simp only [List.append_eq, List.length_append, List.length_cons] at hlen
          omega
        exact OKS_append_left_of_no_lt (by decide) (ih rest hrlen)
      | none =>
        simp only [scanSub, htm]
        by_cases hx : x = '<'
        · subst hx
          apply OKS_cons_of (ih xs hxs)
          intro _
          have htm' : (match splitFirstGt xs with
              | none => none
              | some (a, rest) =>
                if a = [] then none else some (([' '] : List Char), rest)) =
              (none : Option (List Char × List Char)) := htm
          cases hsp : splitFirstGt xs with
          | none =>
            refine Or.inr (Or.inr ?_)
            have hgt : '>' ∉ xs := splitFirstCh_none hsp
            intro hmem
            rcases scanSub_mem tmTag_mem_hyp f xs '>' hmem with h4 | h4
            · exact hgt h4
            · exact absurd h4 (by decide)
          | some p =>
            obtain ⟨a, b⟩ := p
            rw [hsp] at htm'
            have htm2 : (if a = [] then none else some (([' '] : List Char), b)) =
                (none : Option (List Char × List Char)) := htm'
            by_cases ha : a = []
            · subst ha
              obtain ⟨hxs_eq, _⟩ := splitFirstCh_some hsp
              rw [List.nil_append] at hxs_eq
              subst hxs_eq
              cases f with
              | zero => exact Or.inr (Or.inl ⟨b, rfl⟩)
              | succ g =>
                have hgtb : tmTag ('>' :: b) = none := rfl
                refine Or.inr (Or.inl ⟨scanSub tmTag g b, ?_⟩)
                simp only [scanSub, hgtb]
            · rw [if_neg ha] at htm2
              exact Option.noConfusion htm2
        · exact OKS_cons_not_lt hx (ih xs hxs)

theorem collapse_mem : ∀ {l : List Char} {c : Char}, c ∈ collapse l → c ∈ l ∨ c = ' ' := by
  intro l
  induction l with
  | nil =>
    intro c h
    rw [show collapse ([] : List Char) = [] from rfl] at h
    exact absurd h (by simp)
  | cons c0 cs ih =>
    intro c h
    by_cases h0 : isWs c0 = true
    · cases cs with
      | nil =>
        rw [show collapse [c0] = [' '] from by
          rw [show collapse [c0] = (if isWs c0 = true then [' '] else [c0]) from rfl,
            if_pos h0]] at h
        rcases List.mem_singleton.mp h with rfl
        exact Or.inr rfl
      | cons c2 cs2 =>
        by_cases h2 : isWs c2 = true
        · rw [show collapse (c0 :: c2 :: cs2) = collapse (c2 :: cs2) from by
            simp [collapse, h0, h2]] at h
          rcases ih h with h3 | h3
          · exact Or.inl (List.mem_cons_of_mem _ h3)
          · exact Or.inr h3
        · rw [show collapse (c0 :: c2 :: cs2) = ' ' :: collapse (c2 :: cs2) from by
            simp [collapse, h0, h2]] at h
          rcases List.mem_cons.mp h with rfl | h3
          · exact Or.inr rfl
          · rcases ih h3 with h4 | h4
            · exact Or.inl (List.mem_cons_of_mem _ h4)
            · exact Or.inr h4
    · rw [collapse_nonws_cons (Bool.eq_false_iff.mpr h0)] at h
      rcases List.mem_cons.mp h with rfl | h3
      · exact Or.inl (List.mem_cons_self _ _)
      · rcases ih h3 with h4 | h4
        · exact Or.inl (List.mem_cons_of_mem _ h4)
        · exact Or.inr h4

theorem collapse_OKS : ∀ {l : List Char}, OKS l → OKS (collapse l) := by
  intro l
  induction l with
  | nil => intro _; exact OKS_nil
  | cons c cs ih =>
    intro hl
    have hOcs := (OKS_cons_elim hl).1
    by_cases hc : isWs c = true
    · cases cs with
      | nil =>
        rw [show collapse [c] = [' '] from by
          rw [show collapse [c] = (if isWs c = true then [' '] else [c]) from rfl,
            if_pos hc]]
        exact OKS_cons_not_lt (by decide) OKS_nil
      | cons c2 cs2 =>
        by_cases h2 : isWs c2 = true
        · rw [show collapse (c :: c2 :: cs2) = collapse (c2 :: cs2) from by
            simp [collapse, hc, h2]]
          exact ih hOcs
        · rw [show collapse (c :: c2 :: cs2) = ' ' :: collapse (c2 :: cs2) from by
            simp [collapse, hc, h2]]
          exact OKS_cons_not_lt (by decide) (ih hOcs)
    · have hc' : isWs c = false := Bool.eq_false_iff.mpr hc
      rw [collapse_nonws_cons hc']
      by_cases hlt : c = '<'
      · subst hlt
        apply OKS_cons_of (ih hOcs)
        intro _
        rcases (OKS_cons_elim hl).2 rfl with h1 | ⟨l2, h2⟩ | h3
        · subst h1
          exact Or.inl rfl
        · subst h2
          rw [collapse_nonws_cons (by decide)]
          exact Or.inr (Or.inl ⟨collapse l2, rfl⟩)
        · refine Or.inr (Or.inr ?_)
          intro hmem
          rcases collapse_mem hmem with h4 | h4
          · exact h3 h4
          · exact absurd h4 (by decide)
      · exact OKS_cons_not_lt hlt (ih hOcs)

theorem exists_prefix_dropWhile {p : Char → Bool} (l : List Char) :
    ∃ t, l = t ++ l.dropWhile p :=
  ⟨l.takeWhile p, (List.takeWhile_append_dropWhile p l).symm⟩

theorem dropEndWs_isPrefix (X : List Char) : ∃ t, X = dropEndWs X ++ t := by
  refine ⟨(X.reverse.takeWhile isWs).reverse, ?_⟩
  unfold dropEndWs
  rw [← List.reverse_append, List.takeWhile_append_dropWhile, List.reverse_reverse]

theorem pstrip_OKS {l : List Char} (h : OKS l) : OKS (pstrip l) := by
  unfold pstrip
  have h1 : OKS (l.dropWhile isWs) := by
    obtain ⟨t, ht⟩ := exists_prefix_dropWhile (p := isWs) l
    exact OKS_append_right (ht ▸ h)
  obtain ⟨t, ht⟩ := dropEndWs_isPrefix (l.dropWhile isWs)
  exact OKS_append_left (ht ▸ h1)

theorem joinSp_take_isPref : ∀ (ws : List (List Char)) (n : Nat),
    joinSp (ws.take n) <+: joinSp ws := by
  intro ws
  induction ws with
  | nil =>
    intro n
    rw [List.take_nil]
  | cons w ws' ih =>
    intro n
    cases n with
    | zero =>
      rw [List.take_zero]
      exact List.nil_prefix
    | succ m =>
      rw [List.take_succ_cons]
      cases ws' with
      | nil =>
        rw [List.take_nil]
      | cons v ws'' =>
        cases m with
        | zero =>
          rw [List.take_zero]
          rw [show joinSp [w] = w from rfl,
            show joinSp (w :: v :: ws'') = w ++ ' ' :: joinSp (v :: ws'') from rfl]
          exact ⟨' ' :: joinSp (v :: ws''), rfl⟩
        | succ k =>
          rw [List.take_succ_cons]
          rw [show joinSp (w :: v :: List.take k ws'') =
              w ++ ' ' :: joinSp (v :: List.take k ws'') from rfl,
            show joinSp (w :: v :: ws'') = w ++ ' ' :: joinSp (v :: ws'') from rfl]
          have h := ih (k + 1)
          rw [List.take_succ_cons] at h
          obtain ⟨t, ht⟩ := h
          exact ⟨t, by rw [← ht]; simp⟩

theorem truncate50_OKS {t : List Char} (h : OKS t) : OKS (truncate50 t) := by
  unfold truncate50
  by_cases h50 : 50 < (pyWords t).length
  · rw [if_pos h50]
    apply OKS_append_no_angles ?_ (by decide) (by decide)
    apply OKS_isPrefix (joinSp_take_isPref (pyWords t) 50)
    rw [joinSp_pyWords t.length t (le_refl _)]
    exact collapse_OKS (pstrip_OKS h)
  · rw [if_neg h50]
    exact h

theorem tmOpen_none_of_OKS {p2 : Char} {ps repl s : List Char} (hp2 : p2 ≠ '>')
    (hs : OKS s) : tmOpen ('<' :: p2 :: ps) repl s = none := by
  unfold tmOpen
  by_cases hsw : startsWithCI ('<' :: p2 :: ps) s = true
  · rw [if_pos hsw]
    rw [startsWithCI_cons_iff] at hsw
    obtain ⟨c1, cs1, rfl, hlow1, hsw2⟩ := hsw
    have hc1 : c1 = '<' := lowerC_eq_lt hlow1
    subst hc1
    rw [startsWithCI_cons_iff] at hsw2
    obtain ⟨c2, cs2, rfl, hlow2, _⟩ := hsw2
    have hc2 : c2 ≠ '>' := by
      intro hgt
      subst hgt
      rw [show lowerC '>' = '>' from rfl] at hlow2
      exact hp2 hlow2.symm
    have hng : '>' ∉ c2 :: cs2 := by
      rcases (OKS_cons_elim hs).2 rfl with h1 | ⟨l2, h2⟩ | h3
      · exact absurd h1 (by simp)
      · injection h2 with h21 _
        exact absurd h21 hc2
      · exact h3
    have hng2 : '>' ∉ ('<' :: c2 :: cs2).drop ('<' :: p2 :: ps).length := by
      intro hmem
      have hdd : ('<' :: c2 :: cs2).drop ('<' :: p2 :: ps).length =
          (c2 :: cs2).drop (p2 :: ps).length := by
        rw [show ('<' :: p2 :: ps).length = (p2 :: ps).length + 1 from rfl]
        rfl
      rw [hdd] at hmem
      exact hng (List.mem_of_mem_drop hmem)
    have hsp : splitFirstGt (('<' :: c2 :: cs2).drop ('<' :: p2 :: ps).length) = none :=
      splitFirstCh_none_of_not_mem hng2
    rw [hsp]
  · rw [if_neg hsw]

theorem tmElem_none_of_OKS {p2 : Char} {ps closePat repl s : List Char} (hp2 : p2 ≠ '>')
    (hs : OKS s) : tmElem ('<' :: p2 :: ps) closePat repl s = none := by
  unfold tmElem
  by_cases hsw : startsWithCI ('<' :: p2 :: ps) s = true
  · rw [if_pos hsw]
    rw [startsWithCI_cons_iff] at hsw
    obtain ⟨c1, cs1, rfl, hlow1, hsw2⟩ := hsw
    have hc1 : c1 = '<' := lowerC_eq_lt hlow1
    subst hc1
    rw [startsWithCI_cons_iff] at hsw2
    obtain ⟨c2, cs2, rfl, hlow2, _⟩ := hsw2
    have hc2 : c2 ≠ '>' := by
      intro hgt
      subst hgt
      rw [show lowerC '>' = '>' from rfl] at hlow2
      exact hp2 hlow2.symm
    have hng : '>' ∉ c2 :: cs2 := by
      rcases (OKS_cons_elim hs).2 rfl with h1 | ⟨l2, h2⟩ | h3
      · exact absurd h1 (by simp)
      · injection h2 with h21 _
        exact absurd h21 hc2
      · exact h3
    have hng2 : '>' ∉ ('<' :: c2 :: cs2).drop ('<' :: p2 :: ps).length := by
      intro hmem
      have hdd : ('<' :: c2 :: cs2).drop ('<' :: p2 :: ps).length =
          (c2 :: cs2).drop (p2 :: ps).length := by
        rw [show ('<' :: p2 :: ps).length = (p2 :: ps).length + 1 from rfl]
        rfl
      rw [hdd] at hmem
      exact hng (List.mem_of_mem_drop hmem)
    have hsp : splitFirstGt (('<' :: c2 :: cs2).drop ('<' :: p2 :: ps).length) = none :=
      splitFirstCh_none_of_not_mem hng2
    rw [hsp]
  · rw [if_neg hsw]

theorem imgEscSub_id {l : List Char} (h : OKS l) : imgEscSub l = l := by
  unfold imgEscSub runSub
  apply scanSub_id
  intro s hs
  obtain ⟨t, ht⟩ := hs
  rw [← ht] at h
  rw [show ("<img".toList : List Char) = '<' :: 'i' :: "mg".toList from rfl]
  exact tmOpen_none_of_OKS (by decide) (OKS_append_right h)

theorem videoEscSub_id {l : List Char} (h : OKS l) : videoEscSub l = l := by
  unfold videoEscSub runSub
  apply scanSub_id
  intro s hs
  obtain ⟨t, ht⟩ := hs
  rw [← ht] at h
  rw [show ("<video".toList : List Char) = '<' :: 'v' :: "ideo".toList from rfl]
  exact tmElem_none_of_OKS (by decide) (OKS_append_right h)

theorem audioEscSub_id {l : List Char} (h : OKS l) : audioEscSub l = l := by
  unfold audioEscSub runSub
  apply scanSub_id
  intro s hs
  obtain ⟨t, ht⟩ := hs
  rw [← ht] at h
  rw [show ("<audio".toList : List Char) = '<' :: 'a' :: "udio".toList from rfl]
  exact tmElem_none_of_OKS (by decide) (OKS_append_right h)

theorem tmMd_some {s r rest : List Char} (h : tmMd s = some (r, rest)) :
    (∃ pre, s = pre ++ rest) ∧ r = mdRepl := by
  cases s with
  | nil => exact Option.noConfusion h
  | cons c1 s1 =>
    cases s1 with
    | nil => exact Option.noConfusion h
    | cons c2 cs =>
      have h' : (if c1 = '!' && c2 = '[' then
          (match splitFirstCh ']' cs with
            | none => none
            | some (_, afterBr) =>
              match afterBr with
              | c3 :: inner =>
                if c3 = '(' then
                  match splitFirstCh ')' inner with
                  | none => none
                  | some (url, rest) => if url = [] then none else some (mdRepl, rest)
                else none
              | [] => none)
        else none) = some (r, rest) := h
      by_cases h12 : (c1 = '!' && c2 = '[') = true
      · rw [if_pos h12] at h'
        cases hsp : splitFirstCh ']' cs with
        | none => rw [hsp] at h'; exact Option.noConfusion h'
        | some p =>
          obtain ⟨q, afterBr⟩ := p
          rw [hsp] at h'
          cases afterBr with
          | nil =>
            exact Option.noConfusion
              (show (none : Option (List Char × List Char)) = some (r, rest) from h')
          | cons c3 inner =>
            have h3' : (if c3 = '(' then
                (match splitFirstCh ')' inner with
                  | none => none
                  | some (url, rest) => if url = [] then none else some (mdRepl, rest))
              else none) = some (r, rest) := h'
            by_cases hc3 : c3 = '('
            · rw [if_pos hc3] at h3'
              cases hsp2 : splitFirstCh ')' inner with
              | none => rw [hsp2] at h3'; exact Option.noConfusion h3'
              | some p2 =>
                obtain ⟨url, rest'⟩ := p2
                rw [hsp2] at h3'
                have h4' : (if url = [] then none else some (mdRepl, rest')) =
                    some (r, rest) := h3'
                by_cases hurl : url = []
                · rw [if_pos hurl] at h4'
                  exact Option.noConfusion h4'
                · rw [if_neg hurl] at h4'
                  injection h4' with h5
                  injection h5 with hr hrest
                  subst hr
                  subst hrest
                  obtain ⟨hcs, _⟩ := splitFirstCh_some hsp
                  obtain ⟨hinner, _⟩ := splitFirstCh_some hsp2
                  refine ⟨⟨c1 :: c2 :: (q ++ ']' :: c3 :: (url ++ [')'])), ?_⟩, rfl⟩
                  rw [hcs, hinner]
                  simp
            · rw [if_neg hc3] at h3'
              exact Option.noConfusion h3'
      · rw [if_neg h12] at h'
        exact Option.noConfusion h'

theorem tmMd_gt_none (x : List Char) : tmMd ('>' :: x) = none := by
  cases x with
  | nil => rfl
  | cons c2 cs => rfl

theorem tmFenceW_some {s r rest : List Char} (h : tmFenceW s = some (r, rest)) :
    (∃ pre, s = pre ++ rest) ∧ r = [] := by
  unfold tmFenceW at h
  by_cases hsw : startsWithL fence3 s = true
  · rw [if_pos hsw] at h
    injection h with h1
    injection h1 with hr hrest
    subst hr
    obtain ⟨t1, ht1⟩ := exists_prefix_dropWhile (p := isWordC) (s.drop 3)
    obtain ⟨t2, ht2⟩ := exists_prefix_dropWhile (p := isWs) ((s.drop 3).dropWhile isWordC)
    refine ⟨⟨s.take 3 ++ (t1 ++ t2), ?_⟩, rfl⟩
    rw [← hrest]
    conv_lhs => rw [← List.take_append_drop 3 s, ht1, ht2]
    simp
  · rw [if_neg hsw] at h
    exact Option.noConfusion h

theorem tmFenceW_gt_none (x : List Char) : tmFenceW ('>' :: x) = none := rfl

theorem tmFence_some {s r rest : List Char} (h : tmFence s = some (r, rest)) :
    (∃ pre, s = pre ++ rest) ∧ r = [] := by
  unfold tmFence at h
  by_cases hsw : startsWithL fence3 s = true
  · rw [if_pos hsw] at h
    injection h with h1
    injection h1 with hr hrest
    subst hr
    refine ⟨⟨s.take 3, ?_⟩, rfl⟩
    rw [← hrest]
    exact (List.take_append_drop 3 s).symm
  · rw [if_neg hsw] at h
    exact Option.noConfusion h

theorem tmFence_gt_none (x : List Char) : tmFence ('>' :: x) = none := rfl

theorem mdImgSub_OKS {l : List Char} (h : OKS l) : OKS (mdImgSub l) := by
  unfold mdImgSub runSub
  apply scanSub_OKS (R := mdRepl) ?_ (by decide) tmMd_gt_none _ _ h
  intro s r rest hsr
  obtain ⟨hpre, hr⟩ := tmMd_some hsr
  subst hr
  exact ⟨hpre, by decide, fun c hc => Or.inr hc⟩

theorem fenceWSub_OKS {l : List Char} (h : OKS l) : OKS (fenceWSub l) := by
  unfold fenceWSub runSub
  apply scanSub_OKS (R := []) ?_ (by simp) tmFenceW_gt_none _ _ h
  intro s r rest hsr
  obtain ⟨hpre, hr⟩ := tmFenceW_some hsr
  subst hr
  exact ⟨hpre, by simp, fun c hc => absurd hc (by simp)⟩

theorem fenceSub_OKS {l : List Char} (h : OKS l) : OKS (fenceSub l) := by
  unfold fenceSub runSub
  apply scanSub_OKS (R := []) ?_ (by simp) tmFence_gt_none _ _ h
  intro s r rest hsr
  obtain ⟨hpre, hr⟩ := tmFence_some hsr
  subst hr
  exact ⟨hpre, by simp, fun c hc => absurd hc (by simp)⟩

theorem tmInline_some {s r rest : List Char} (h : tmInline s = some (r, rest)) :
    r ≠ [] ∧ btChar ∉ r ∧ s = btChar :: (r ++ btChar :: rest) := by
  cases s with
  | nil => exact Option.noConfusion h
  | cons c cs =>
    have h' : (if c = btChar then
        (match splitFirstCh btChar cs with
          | none => none
          | some (x, rest) => if x = [] then none else some (x, rest))
      else none) = some (r, rest) := h
    by_cases hc : c = btChar
    · rw [if_pos hc] at h'
      cases hsp : splitFirstCh btChar cs with
      | none => rw [hsp] at h'; exact Option.noConfusion h'
      | some p =>
        obtain ⟨x, rest'⟩ := p
        rw [hsp] at h'
        have h2' : (if x = [] then none else some (x, rest')) = some (r, rest) := h'
        by_cases hx : x = []
        · rw [if_pos hx] at h2'
          exact Option.noConfusion h2'
        · rw [if_neg hx] at h2'
          injection h2' with h3
          injection h3 with hr hrest
          subst hr
          subst hrest
          obtain ⟨hcs, hnb⟩ := splitFirstCh_some hsp
          subst hc
          exact ⟨hx, hnb, by rw [hcs]⟩
    · rw [if_neg hc] at h'
      exact Option.noConfusion h'

theorem tmInline_gt_none (x : List Char) : tmInline ('>' :: x) = none := rfl

theorem tmInline_mem_hyp : ∀ s r rest, tmInline s = some (r, rest) →
    (∃ pre, s = pre ++ rest) ∧ ∀ c ∈ r, c ∈ s ∨ c ∈ ([] : List Char) := by
  intro s r rest h
  obtain ⟨_, _, hshape⟩ := tmInline_some h
  constructor
  · exact ⟨btChar :: (r ++ [btChar]), by rw [hshape]; simp⟩
  · intro c hc
    exact Or.inl (by rw [hshape]; simp [hc])

theorem inline_scan_OKS : ∀ (fuel : Nat) (l : List Char), OKS l →
    OKS (scanSub tmInline fuel l) := by
  intro fuel
  induction fuel with
  | zero => intro l h; exact h
  | succ f ih =>
    intro l hl
    cases l with
    | nil => rw [scanSub_nil]; exact OKS_nil
    | cons x xs =>
      have hxs : OKS xs := (OKS_cons_elim hl).1
      cases htm : tmInline (x :: xs) with
      | some pr =>
        obtain ⟨r, rest⟩ := pr
        simp only [scanSub, htm]
        obtain ⟨hrne, hnb, hshape⟩ := tmInline_some htm
        rw [hshape] at hl
        have hTail : OKS (r ++ btChar :: rest) := (OKS_cons_elim hl).1
        have hOrest : OKS rest := (OKS_cons_elim (OKS_append_right hTail)).1
        have hS := ih rest hOrest
        intro a b hab
        rcases List.append_eq_append_iff.mp hab with ⟨a2, ha2, hS2⟩ | ⟨c', hr, hcb⟩
        · exact hS a2 b hS2
        · cases c' with
          | nil =>
            rw [List.nil_append] at hcb
            exact hS [] b hcb.symm
          | cons c1 c2s =>
            rw [List.cons_append] at hcb
            injection hcb with hc1 hb
            subst hc1
            rcases hl (btChar :: a) (c2s ++ btChar :: rest)
                (by rw [hr]; simp) with h1 | ⟨l2, h2⟩ | h3
            · exact absurd h1 (by simp)
            · cases c2s with
              | nil =>
                rw [List.nil_append] at h2
                injection h2 with hbt _
                exact absurd hbt (by decide)
              | cons d ds =>
                rw [List.cons_append] at h2
                injection h2 with hd hds
                subst hd
                refine Or.inr (Or.inl ⟨ds ++ scanSub tmInline f rest, ?_⟩)
                rw [hb]
                rfl
            · refine Or.inr (Or.inr ?_)
              rw [hb]
              intro hmem
              rcases List.mem_append.mp hmem with h4 | h4
              · exact h3 (List.mem_append.mpr (Or.inl h4))
              · rcases scanSub_mem (R := []) tmInline_mem_hyp f rest '>' h4 with h5 | h5
                · exact h3 (List.mem_append.mpr (Or.inr (List.mem_cons_of_mem _ h5)))
                · exact absurd h5 (by simp)
      | none =>
        simp only [scanSub, htm]
        by_cases hx : x = '<'
        · subst hx
          apply OKS_cons_of (ih xs hxs)
          intro _
          rcases (OKS_cons_elim hl).2 rfl with h1 | ⟨l2, h2⟩ | h3
          · subst h1
            exact Or.inl (scanSub_nil tmInline f)
          · subst h2
            cases f with
            | zero => exact Or.inr (Or.inl ⟨l2, rfl⟩)
            | succ g =>
              refine Or.inr (Or.inl ⟨scanSub tmInline g l2, ?_⟩)
              simp only [scanSub, tmInline_gt_none]
          · refine Or.inr (Or.inr ?_)
            intro hmem
            rcases scanSub_mem (R := []) tmInline_mem_hyp f xs '>' hmem with h4 | h4
            · exact h3 h4
            · exact absurd h4 (by simp)
        · exact OKS_cons_not_lt hx (ih xs hxs)

theorem inlineCodeSub_OKS {l : List Char} (h : OKS l) : OKS (inlineCodeSub l) := by
  unfold inlineCodeSub runSub
  exact inline_scan_OKS l.length l h

theorem tipBody_OKS (content : List Char) : OKS (tipBody content) := by
  have h1 : OKS (stripTags (audioSub (videoSub (imgSub (scriptStyleSub content))))) := by
    unfold stripTags runSub
    exact stripTags_scan_OKS _ _ (le_refl _)
  have h2 : OKS (cleanedText content) := collapse_OKS (pstrip_OKS h1)
  have h3 : OKS (extractHtmlBody content) := truncate50_OKS h2
  show OKS (inlineCodeSub (fenceSub (fenceWSub (mdImgSub
    (audioEscSub (videoEscSub (imgEscSub (extractHtmlBody content))))))))
  rw [imgEscSub_id h3, videoEscSub_id h3, audioEscSub_id h3]
  exact inlineCodeSub_OKS (fenceSub_OKS (fenceWSub_OKS (mdImgSub_OKS h3)))

theorem anySuffix_eq_true_iff {p : List Char → Bool} : ∀ {l : List Char},
    anySuffix p l = true ↔ ∃ a b, l = a ++ b ∧ p b = true := by
  intro l
  induction l with
  | nil =>
    rw [show anySuffix p [] = p [] from rfl]
    constructor
    · intro h
      exact ⟨[], [], rfl, h⟩
    · rintro ⟨a, b, hab, hpb⟩
      rcases List.append_eq_nil.mp hab.symm with ⟨rfl, rfl⟩
      exact hpb
  | cons c cs ih =>
    rw [show anySuffix p (c :: cs) = (p (c :: cs) || anySuffix p cs) from rfl,
      Bool.or_eq_true, ih]
    constructor
    · rintro (h | ⟨a, b, hab, hpb⟩)
      · exact ⟨[], c :: cs, rfl, h⟩
      · exact ⟨c :: a, b, by rw [hab]; rfl, hpb⟩
    · rintro ⟨a, b, hab, hpb⟩
      cases a with
      | nil =>
        rw [List.nil_append] at hab
        exact Or.inl (by rw [hab]; exact hpb)
      | cons a1 as =>
        rw [List.cons_append] at hab
        injection hab with h1 h2
        exact Or.inr ⟨as, b, h2, hpb⟩

theorem startsWithCI_decomp : ∀ (pat l : List Char), startsWithCI pat l = true →
    ∃ pre rest, l = pre ++ rest ∧ pre.map lowerC = pat := by
  intro pat
  induction pat with
  | nil =>
    intro l _
    exact ⟨[], l, rfl, rfl⟩
  | cons p ps ih =>
    intro l h
    rw [startsWithCI_cons_iff] at h
    obtain ⟨c, cs, rfl, hlow, h2⟩ := h
    obtain ⟨pre, rest, rfl, hmap⟩ := ih cs h2
    exact ⟨c :: pre, rest, rfl, by rw [List.map_cons, hlow, hmap]⟩

theorem anySuffixCI_false_of_OKS {l : List Char} (hOKS : OKS l) (p2 : Char) (ps : List Char)
    (hp2 : p2 ≠ '>') (hgt : '>' ∈ ps) :
    anySuffix (startsWithCI ('<' :: p2 :: ps)) l = false := by
  cases hb : anySuffix (startsWithCI ('<' :: p2 :: ps)) l with
  | false => rfl
  | true =>
    exfalso
    obtain ⟨a, b, hab, hpb⟩ := anySuffix_eq_true_iff.mp hb
    obtain ⟨pre, rest, hbr, hmap⟩ := startsWithCI_decomp _ _ hpb
    subst hbr
    cases pre with
    | nil => simp at hmap
    | cons q1 pre2 =>
      rw [List.map_cons] at hmap
      injection hmap with h1 hmap2
      have hq1 : q1 = '<' := lowerC_eq_lt h1
      subst hq1
      cases pre2 with
      | nil => simp at hmap2
      | cons q2 pre3 =>
        rw [List.map_cons] at hmap2
        injection hmap2 with h2 hmap3
        have hq2 : q2 ≠ '>' := by
          intro hq
          subst hq
          rw [show lowerC '>' = '>' from rfl] at h2
          exact hp2 h2.symm
        have hgtm : '>' ∈ q2 :: (pre3 ++ rest) := by
          rw [← hmap3] at hgt
          obtain ⟨q, hqmem, hql⟩ := List.mem_map.mp hgt
          have hq := lowerC_eq_gt hql
          subst hq
          exact List.mem_cons_of_mem _ (List.mem_append.mpr (Or.inl hqmem))
        have hT : l = a ++ '<' :: (q2 :: (pre3 ++ rest)) := by
          rw [hab]
          rfl
        rcases hOKS a _ hT with hc1 | ⟨l2, hc2⟩ | hc3
        · exact absurd hc1 (by simp)
        · injection hc2 with hq' _
          exact hq2 hq'
        · exact hc3 hgtm

theorem hasImgTag_false_of_OKS {l : List Char} (hOKS : OKS l) : hasImgTag l = false := by
  unfold hasImgTag
  cases hb : anySuffix (fun s => startsWithCI "<img".toList s && (s.drop 4).contains '>') l with
  | false => rfl
  | true =>
    exfalso
    obtain ⟨a, b, hab, hpb⟩ := anySuffix_eq_true_iff.mp hb
    rw [Bool.and_eq_true] at hpb
    obtain ⟨hsw, hcont⟩ := hpb
    obtain ⟨pre, rest, hbr, hmap⟩ := startsWithCI_decomp _ _ hsw
    subst hbr
    rw [show ("<img".toList : List Char) = '<' :: 'i' :: 'm' :: 'g' :: [] from rfl] at hmap
    cases pre with
    | nil => simp at hmap
    | cons q1 pre1 =>
      rw [List.map_cons] at hmap
      injection hmap with h1 hmap1
      have hq1 : q1 = '<' := lowerC_eq_lt h1
      subst hq1
      cases pre1 with
      | nil => simp at hmap1
      | cons q2 pre2 =>
        rw [List.map_cons] at hmap1
        injection hmap1 with h2 hmap2
        cases pre2 with
        | nil => simp at hmap2
        | cons q3 pre3 =>
          rw [List.map_cons] at hmap2
          injection hmap2 with h3 hmap3
          cases pre3 with
          | nil => simp at hmap3
          | cons q4 pre4 =>
            rw [List.map_cons] at hmap3
            injection hmap3 with h4 hmap4
            cases pre4 with
            | cons q5 pre5 => simp at hmap4
            | nil =>
              have hcont2 : rest.contains '>' = true := hcont
              have hgtrest : '>' ∈ rest := List.elem_iff.mp hcont2
              have hT : l = a ++ '<' :: (q2 :: q3 :: q4 :: rest) := by
                rw [hab]
                rfl
              rcases hOKS a _ hT with hc1 | ⟨l2, hc2⟩ | hc3
              · exact absurd hc1 (by simp)
              · injection hc2 with hq2 _
                rw [hq2] at h2
                exact absurd h2 (by decide)
              · exact hc3 (by simp [hgtrest])

/-- C1: the body summary produced for a tip file (`extract_html_body`
followed by `filter_media_tags`) never contains a verbatim `<img …>` tag,
nor a verbatim `</video>` or `</audio>` closing tag (so no verbatim
`<video>…</video>` or `<audio>…</audio>` element), case-insensitively.
These media elements are indeed eliminated, as the spec states — though
not always in favour of a placeholder: see the counterexample, where a
markdown image survives verbatim because the backtick pass reassembles
it after the markdown-image pass has already run. -/
theorem claim_C1 (content : List Char) :
    hasImgTag (tipBody content) = false ∧
    hasCloseVideo (tipBody content) = false ∧
    hasCloseAudio (tipBody content) = false := by
  have hOKS := tipBody_OKS content
  refine ⟨hasImgTag_false_of_OKS hOKS, ?_, ?_⟩
  · unfold hasCloseVideo
    rw [show ("</video>".toList : List Char) = '<' :: '/' :: "video>".toList from rfl]
    exact anySuffixCI_false_of_OKS hOKS '/' _ (by decide) (by decide)
  · unfold hasCloseAudio
    rw [show ("</audio>".toList : List Char) = '<' :: '/' :: "audio>".toList from rfl]
    exact anySuffixCI_false_of_OKS hOKS '/' _ (by decide) (by decide)

/-- C1 counterexample to "each media element is replaced by its
corresponding placeholder marker": on this input the `<img …>` tag is
replaced and stripped, but the markdown-image syntax comes out verbatim —
the inline-code pass (`) runs after the markdown-image pass and its
removal of the backticks assembles a fresh `![alt](url)` that no longer
gets replaced.  The final summary is exactly `![a](b)` and contains no
`image` placeholder text at all. -/
theorem claim_C1_counterexample :
    tipBody "<img src=x> ![a\x60]\x60(b)".toList = "![a](b)".toList ∧
    hasMdImage (tipBody "<img src=x> ![a\x60]\x60(b)".toList) = true ∧
    containsStr "image".toList (tipBody "<img src=x> ![a\x60]\x60(b)".toList) = false := by
  refine ⟨rfl, rfl, rfl⟩

/-- C10, witness at a concrete input: `7.html` and `007.html` both yield
identifier 7; the entry of `007.html` (processed later) wins and no
warning is produced. -/
theorem claim_C10_witness :
    ((fun _ => "<h1>T</h1>".toList) "tips/7.html".toList ≠ ([] : List Char)) ∧
    ((fun _ => "<h1>T</h1>".toList) "tips/007.html".toList ≠ ([] : List Char)) ∧
    extractTipInfo ((fun _ => "<h1>T</h1>".toList) "tips/7.html".toList)
      "tips/7.html".toList = Except.ok (7, "T".toList, "T".toList) ∧
    extractTipInfo ((fun _ => "<h1>T</h1>".toList) "tips/007.html".toList)
      "tips/007.html".toList = Except.ok (7, "T".toList, "T".toList) ∧
    dictLookup 7 (parseTipsFromBranch (fun _ => "<h1>T".toList ++ "</h1>".toList)
        "draft".toList ([] ++ ["tips/7.html".toList, "tips/007.html".toList])).tips =
      some ⟨7, "T".toList, "T".toList, "draft".toList⟩ ∧
    (parseTipsFromBranch (fun _ => "<h1>T".toList ++ "</h1>".toList) "draft".toList
        ([] ++ ["tips/7.html".toList, "tips/007.html".toList])).warnings =
      (parseTipsFromBranch (fun _ => "<h1>T".toList ++ "</h1>".toList) "draft".toList []).warnings := by
  have h := (claim_C10.2 (fun _ => "<h1>T".toList ++ "</h1>".toList) "draft".toList []
    "tips/7.html".toList "tips/007.html".toList 7 "T".toList "T".toList "T".toList "T".toList
    (by decide) (by decide) (by rfl) (by rfl))
  exact ⟨by decide, by decide, by rfl, by rfl, h.1, h.2⟩

end GalaxyTips
